import Mathlib

/-!
# The download coordinator of `rain`

A shallow embedding of `internal/downloader/downloader.go`: the piece table,
the registry of in-flight piece downloaders, piece selection (`nextDownload`),
the cases of the `Run` select loop and the retirement routine `downloadPiece`;
and of `torrent/internal/peer/peer.go`: the peer session with `Close` and
`Run`, and the ordering `ByDownloadRate`.

Conventions of the embedding
* a Go pointer is an `Option`: `none` is the nil pointer;
* a Go map used as a set of keys is a list of keys, the order in which a
  `range` statement visits them is an explicit argument (any permutation);
* a Go map that is only looked up, written and deleted is an association
  list read through `mapGet`;
* a run-time panic is the `Except.error` result, so a handler that faults has
  no successor state;
* a channel that is only closed and waited for is a flag, closed or not; the
  sends of a goroutine are the lists it returns, and which case a `select`
  takes is an explicit argument.
-/

set_option linter.dupNamespace false

namespace Rain

/-- Pointer to a peer session (`*peer.Peer`); `none` is the nil pointer. -/
abbrev PeerPtr := Option Nat

/-- Run-time faults of the embedded code. `fuelExhausted` is not a fault of
the program: it marks a loop of the model that was given too little fuel. -/
inductive Fault where
  | indexOutOfRange
  | nilDereference
  | fuelExhausted
deriving DecidableEq, Repr

deriving instance DecidableEq for Except

namespace piece

/-- Modelled from the spec: the declaration of `piece.Piece` is not among the
embedded files. The spec gives a piece a stable index and a validated flag;
these are the two fields the coordinator reads, `Index` and `OK`. -/
structure Piece where
  Index : Nat
  OK : Bool
deriving DecidableEq, Repr

end piece

namespace piecedownloader

/-- Modelled from the spec: the declaration of `PieceDownloader` is not among
the embedded files. The spec's piece downloader owns one (piece, peer) target;
the coordinator reads it as `pd.Piece.Index` (here `PieceIndex`, pieces are
never renumbered) and `pd.Peer`. `addr` is the address of the allocation: the
registry is keyed by pointer, so two downloaders are the same key exactly
when they are the same allocation. -/
structure PieceDownloader where
  addr : Nat
  PieceIndex : Nat
  Peer : PeerPtr
deriving DecidableEq, Repr

/-- Modelled from the spec: the constructor `piecedownloader.New(pi, pe)` is
not among the embedded files; it returns a new allocation, at address `addr`,
that records its target piece and peer. -/
def New (addr : Nat) (pi : piece.Piece) (pe : PeerPtr) : PieceDownloader :=
  { addr := addr, PieceIndex := pi.Index, Peer := pe }

end piecedownloader

open piecedownloader (PieceDownloader)

/-! ## Go maps -/

/-- Lookup `m[k]` in a map with pointer values: `none` (nil) when absent. -/
def mapGet {K V : Type} [DecidableEq K] : List (K × V) → K → Option V
  | [], _ => none
  | (k1, v) :: rest, k => if k1 = k then some v else mapGet rest k

/-- Deletion `delete(m, k)`. -/
def mapDelete {K V : Type} [DecidableEq K] (m : List (K × V)) (k : K) : List (K × V) :=
  m.filter (fun kv => decide (kv.1 ≠ k))

/-- Assignment `m[k] = v`: the binding of `k` is replaced or added. -/
def mapSet {K V : Type} [DecidableEq K] (m : List (K × V)) (k : K) (v : V) : List (K × V) :=
  (k, v) :: mapDelete m k

/-- Assignment `m[k] = struct{}{}` on a map used as a set of keys. -/
def setAdd {K : Type} [DecidableEq K] (m : List K) (k : K) : List K :=
  if k ∈ m then m else m ++ [k]

/-! ## Data model -/

/-- The coordinator's record for one piece (`downloader.Piece`). -/
structure Piece where
  Piece : piece.Piece
  index : Nat
  havingPeers : List PeerPtr
  requestedPeers : List (PeerPtr × PieceDownloader)
deriving DecidableEq, Repr

namespace torrentdata

/-- Modelled from the spec: the declaration of `torrentdata.Data` is not
among the embedded files. The coordinator uses its slice `Pieces` and the
local bitfield returned by `Bitfield()`, one bit per piece. -/
structure Data where
  Pieces : List piece.Piece
  bitfield : List Bool
deriving DecidableEq, Repr

/-- Modelled from the spec: the code that fills `Data.Pieces` is not among the
embedded files; the spec gives each piece a stable, 0-based, dense index, so
the piece stored at position `i` carries `Index = i`. -/
def Data.WellIndexed (d : Data) : Prop :=
  ∀ (i : Nat) (p : piece.Piece), d.Pieces[i]? = some p → p.Index = i

end torrentdata

/-- Modelled from the spec: `Bitfield.Set` is declared outside the embedded
files; the bitfield has one bit per piece and `Set(i)` turns bit `i` on. -/
def bitfieldSet (bits : List Bool) (i : Nat) : List Bool :=
  bits.set i true

/-- The constant `parallelPieceDownloads`. -/
def parallelPieceDownloads : Nat := 4

/-- The coordinator `Downloader`. `pieces` and `downloads` are its fields,
`bitfield` is `d.data.Bitfield()`. Two components are not fields of the Go
struct: `heap` is the next unused address of the allocator and `running` is
the set of `downloadPiece` goroutines that were started and have not
returned. -/
structure Downloader where
  pieces : List Piece
  downloads : Finset PieceDownloader
  bitfield : List Bool
  heap : Nat
  running : Finset PieceDownloader
deriving DecidableEq

/-- The slots built by the loop of `New`, the first one at position `k`. -/
def newPieces : Nat → List piece.Piece → List Piece
  | _, [] => []
  | k, p :: rest =>
    { Piece := p, index := k, havingPeers := [], requestedPeers := [] } :: newPieces (k + 1) rest

/-- The constructor `downloader.New`. -/
def New (data : torrentdata.Data) : Downloader :=
  { pieces := newPieces 0 data.Pieces
    downloads := ∅
    bitfield := data.bitfield
    heap := 0
    running := ∅ }

/-! ## Piece selection -/

/-- The three results of `nextDownload`. -/
structure Selection where
  pi : Option piece.Piece
  pe : PeerPtr
  ok : Bool
deriving DecidableEq, Repr

/-- The statement `for pe = range m { continue }`: `pe` is assigned every key
in the order of the visit and keeps the last one. -/
def rangeAssign (pe : PeerPtr) (keys : List PeerPtr) : PeerPtr :=
  keys.foldl (fun _ k => k) pe

/-- The loop of `nextDownload` over the slots from position `k` on; `pe` is
the current value of the named result and `ord k keys` is the order in which
the range over the having peers of slot `k` visits its keys. -/
def nextDownloadLoop (ord : Nat → List PeerPtr → List PeerPtr) :
    Nat → List Piece → PeerPtr → Selection
  | _, [], pe => { pi := none, pe := pe, ok := false }
  | k, p :: rest, pe =>
    if p.Piece.OK then nextDownloadLoop ord (k + 1) rest pe
    else if p.havingPeers.length = 0 then nextDownloadLoop ord (k + 1) rest pe
    else
      let pe1 := rangeAssign pe (ord k p.havingPeers)
      if pe1 = none then nextDownloadLoop ord (k + 1) rest pe1
      else { pi := some p.Piece, pe := pe1, ok := true }

/-- The method `Downloader.nextDownload`. -/
def Downloader.nextDownload (d : Downloader) (ord : Nat → List PeerPtr → List PeerPtr) :
    Selection :=
  nextDownloadLoop ord 0 d.pieces none

/-! ## The cases of `Run` -/

/-- The body of the scheduling loop once `nextDownload` has returned the pair
`(pi, pe)`: the downloader is built, registered in `downloads` and in
`requestedPeers` of the slot `pi.Index`, and its goroutine is started. -/
def Downloader.startDownload (d : Downloader) (pi : piece.Piece) (pe : PeerPtr) :
    Except Fault Downloader :=
  let pd := piecedownloader.New d.heap pi pe
  match d.pieces[pi.Index]? with
  | none => .error .indexOutOfRange
  | some p =>
    .ok { d with
          downloads := insert pd d.downloads
          pieces := d.pieces.set pi.Index
            { p with requestedPeers := mapSet p.requestedPeers pe pd }
          heap := d.heap + 1
          running := insert pd d.running }

/-- The scheduling loop of the tick case,
`for len(d.downloads) < parallelPieceDownloads { ... }`. The iteration that
runs with `fuel + 1` steps left visits map keys in the orders `ords fuel`. -/
def tickLoop (ords : Nat → Nat → List PeerPtr → List PeerPtr) :
    Nat → Downloader → Except Fault Downloader
  | 0, d => if d.downloads.card < parallelPieceDownloads then .error .fuelExhausted else .ok d
  | fuel + 1, d =>
    if d.downloads.card < parallelPieceDownloads then
      let sel := d.nextDownload (ords fuel)
      if sel.ok = false then .ok d
      else
        match sel.pi with
        | none => .error .nilDereference
        | some pi =>
          match d.startDownload pi sel.pe with
          | .error e => .error e
          | .ok d1 => tickLoop ords fuel d1
    else .ok d

/-- The tick case of `Run`. -/
def Downloader.tick (d : Downloader) (ords : Nat → Nat → List PeerPtr → List PeerPtr) :
    Except Fault Downloader :=
  tickLoop ords parallelPieceDownloads d

/-- The case `peer.Have` of `Run`. -/
def Downloader.onHave (d : Downloader) (pe : PeerPtr) (Index : Nat) : Except Fault Downloader :=
  match d.pieces[Index]? with
  | none => .error .indexOutOfRange
  | some p =>
    .ok { d with pieces := d.pieces.set Index { p with havingPeers := setAdd p.havingPeers pe } }

/-- The case `peer.Choke` of `Run`: its body is commented out. -/
def Downloader.onChoke (d : Downloader) (_pe : PeerPtr) : Except Fault Downloader :=
  .ok d

/-- The case `peer.Piece` of `Run`. The result is the state together with the
downloader on whose `PieceC` the message is sent. -/
def Downloader.onPiece (d : Downloader) (pe : PeerPtr) (Index : Nat) :
    Except Fault (Downloader × PieceDownloader) :=
  match d.pieces[Index]? with
  | none => .error .indexOutOfRange
  | some p =>
    match mapGet p.requestedPeers pe with
    | none => .error .nilDereference
    | some pd => .ok (d, pd)

/-- The method `Downloader.downloadPiece`, from the return of `pd.Run` on;
`err` tells whether `pd.Run` returned an error. -/
def Downloader.downloadPiece (d : Downloader) (pd : PieceDownloader) (err : Bool) :
    Except Fault Downloader :=
  if err then .ok { d with running := d.running.erase pd }
  else
    match d.pieces[pd.PieceIndex]? with
    | none => .error .indexOutOfRange
    | some p =>
      .ok { d with
            bitfield := bitfieldSet d.bitfield pd.PieceIndex
            downloads := d.downloads.erase pd
            pieces := d.pieces.set pd.PieceIndex
              { p with requestedPeers := mapDelete p.requestedPeers pd.Peer }
            running := d.running.erase pd }

/-- Modelled from the spec: the code that writes the `OK` flag of a piece is
not among the embedded files; in the spec the piece store sets the validated
flag. The slot reads the flag through its pointer to the piece, so from the
coordinator's side the flag of piece `i` can take a new value at any time. -/
def Downloader.setOK (d : Downloader) (i : Nat) (ok : Bool) : Downloader :=
  match d.pieces[i]? with
  | none => d
  | some p => { d with pieces := d.pieces.set i { p with Piece := { p.Piece with OK := ok } } }

/-- What the select loop of `Run` and the goroutines it starts can do: the
tick, a peer message (`Have`, `Choke`, `Piece`, or any other kind, which the
type switch ignores), and the return of `pd.Run` inside a `downloadPiece`
goroutine, with or without an error. -/
inductive Event where
  | tick (ords : Nat → Nat → List PeerPtr → List PeerPtr)
  | Have (pe : PeerPtr) (Index : Nat)
  | Choke (pe : PeerPtr)
  | Piece (pe : PeerPtr) (Index : Nat)
  | other (pe : PeerPtr)
  | done (pd : PieceDownloader) (err : Bool)

/-- One step of the coordinator: one case of the select loop of `Run`, or
the rest of `downloadPiece` once `pd.Run` has returned. A step is taken as a
whole; the interleaving of the statements of two goroutines is not part of
the embedding. -/
def Downloader.Run (d : Downloader) : Event → Except Fault Downloader
  | .tick ords => d.tick ords
  | .Have pe i => d.onHave pe i
  | .Choke pe => d.onChoke pe
  | .Piece pe i => (d.onPiece pe i).map Prod.fst
  | .other _ => .ok d
  | .done pd err => d.downloadPiece pd err

/-- An event can happen in state `d`: a range statement visits every key of
its map once, and only a goroutine that is still running can return. -/
def Event.Enabled (d : Downloader) : Event → Prop
  | .tick ords => ∀ n k l, (ords n k l).Perm l
  | .done pd _ => pd ∈ d.running
  | _ => True

/-- The states the coordinator reaches from `New` on well-indexed data, by
its own steps and by the piece store updating an `OK` flag. -/
inductive Reachable : Downloader → Prop
  | init (data : torrentdata.Data) (h : data.WellIndexed) : Reachable (New data)
  | step {d d1 : Downloader} (e : Event) (hr : Reachable d) (he : e.Enabled d)
      (hs : d.Run e = .ok d1) : Reachable d1
  | stored {d : Downloader} (i : Nat) (ok : Bool) (hr : Reachable d) : Reachable (d.setOK i ok)

/-- A visiting order for examples: the keys as they are stored. -/
def ordId : Nat → List PeerPtr → List PeerPtr := fun _ l => l

/-- A visiting order for examples: the keys in reverse. -/
def ordRev : Nat → List PeerPtr → List PeerPtr := fun _ l => l.reverse

/-! ## The invariant -/

/-- The invariant kept by every step of the coordinator. -/
structure Inv (d : Downloader) : Prop where
  cap : d.downloads.card ≤ parallelPieceDownloads
  indexed : ∀ (k : Nat) (p : Piece), d.pieces[k]? = some p → p.Piece.Index = k
  requested : ∀ (k : Nat) (p : Piece) (pe : PeerPtr) (pd : PieceDownloader),
    d.pieces[k]? = some p → mapGet p.requestedPeers pe = some pd →
      pe ∈ p.havingPeers ∧ pd.PieceIndex = k ∧ pd.Peer = pe ∧ pd ∈ d.downloads
  fresh : ∀ pd : PieceDownloader, pd ∈ d.downloads ∨ pd ∈ d.running → pd.addr < d.heap

/-! ## Example states -/

/-- Example torrent data: two incomplete pieces. -/
def exData : torrentdata.Data :=
  { Pieces := [{ Index := 0, OK := false }, { Index := 1, OK := false }]
    bitfield := [false, false] }

/-- Example peers. -/
def exPeerP : PeerPtr := some 7

/-- A second example peer. -/
def exPeerQ : PeerPtr := some 9

/-- The slot of piece 1 in the examples: nothing known about it. -/
def exSlot1 : Piece :=
  { Piece := { Index := 1, OK := false }, index := 1, havingPeers := [], requestedPeers := [] }

/-- The state after `New exData` and a `Have(0)` from `exPeerP`. -/
def exHave : Downloader :=
  { pieces := [{ Piece := { Index := 0, OK := false }, index := 0,
                 havingPeers := [exPeerP], requestedPeers := [] }, exSlot1]
    downloads := ∅
    bitfield := [false, false]
    heap := 0
    running := ∅ }

/-- The four downloaders that one tick starts in `exHave`. -/
def exFour : Finset PieceDownloader :=
  {⟨3, 0, exPeerP⟩, ⟨2, 0, exPeerP⟩, ⟨1, 0, exPeerP⟩, ⟨0, 0, exPeerP⟩}

/-- The state after a tick in `exHave`. -/
def exTick : Downloader :=
  { pieces := [{ Piece := { Index := 0, OK := false }, index := 0,
                 havingPeers := [exPeerP], requestedPeers := [(exPeerP, ⟨3, 0, exPeerP⟩)] },
               exSlot1]
    downloads := exFour
    bitfield := [false, false]
    heap := 4
    running := exFour }

/-- The state after the downloader at address 3 has finished without error
in `exTick`. -/
def exDone : Downloader :=
  { pieces := [{ Piece := { Index := 0, OK := false }, index := 0,
                 havingPeers := [exPeerP], requestedPeers := [] }, exSlot1]
    downloads := {⟨2, 0, exPeerP⟩, ⟨1, 0, exPeerP⟩, ⟨0, 0, exPeerP⟩}
    bitfield := [true, false]
    heap := 4
    running := {⟨2, 0, exPeerP⟩, ⟨1, 0, exPeerP⟩, ⟨0, 0, exPeerP⟩} }

/-- The state after `New exData` and a `Have(0)` from both example peers. -/
def exHave2 : Downloader :=
  { pieces := [{ Piece := { Index := 0, OK := false }, index := 0,
                 havingPeers := [exPeerP, exPeerQ], requestedPeers := [] }, exSlot1]
    downloads := ∅
    bitfield := [false, false]
    heap := 0
    running := ∅ }

/-- Visiting orders that alternate between the stored order and its reverse. -/
def ordsAlt : Nat → Nat → List PeerPtr → List PeerPtr :=
  fun n => if n % 2 = 0 then ordId else ordRev

/-- The four downloaders that a tick with `ordsAlt` starts in `exHave2`. -/
def exFour2 : Finset PieceDownloader :=
  {⟨3, 0, exPeerQ⟩, ⟨2, 0, exPeerP⟩, ⟨1, 0, exPeerQ⟩, ⟨0, 0, exPeerP⟩}

/-- The state after a tick with `ordsAlt` in `exHave2`. -/
def exTick2 : Downloader :=
  { pieces := [{ Piece := { Index := 0, OK := false }, index := 0,
                 havingPeers := [exPeerP, exPeerQ],
                 requestedPeers := [(exPeerQ, ⟨3, 0, exPeerQ⟩), (exPeerP, ⟨2, 0, exPeerP⟩)] },
               exSlot1]
    downloads := exFour2
    bitfield := [false, false]
    heap := 4
    running := exFour2 }

/-! ## The peer session (`torrent/internal/peer/peer.go`) -/

namespace peer

/-- Faults of channel operations. -/
inductive ChanFault where
  | closeOfClosedChannel
deriving DecidableEq, Repr

/-- The struct `peer.Peer`. `addr` is the address of the allocation, the
identity a `*Peer` carries on the channels. The embedded connection is kept
as `connClosed`, whether the transport has been closed; the channels `closeC`
and `doneC` are kept as closed (`true`) or not closed. The channels
`messages` and `disconnect` appear as the sends of `Run`; the fields
`Messages`, `ExtensionHandshake` and `AllowedFastPieces` are not read by the
embedded methods and are left out. -/
structure Peer where
  addr : Nat
  connClosed : Bool
  AmChoking : Bool
  AmInterested : Bool
  PeerChoking : Bool
  PeerInterested : Bool
  BytesDownlaodedInChokePeriod : Int
  OptimisticUnchoked : Bool
  Snubbed : Bool
  closeC : Bool
  doneC : Bool
deriving DecidableEq, Repr

/-- The struct `peer.Message`: the sending peer and the payload. -/
structure Message (M : Type) where
  Peer : Nat
  Message : M
deriving DecidableEq, Repr

/-- The constructor `peer.New`, allocating at address `addr`. -/
def New (addr : Nat) : Peer :=
  { addr := addr
    connClosed := false
    AmChoking := true
    AmInterested := false
    PeerChoking := true
    PeerInterested := false
    BytesDownlaodedInChokePeriod := 0
    OptimisticUnchoked := false
    Snubbed := false
    closeC := false
    doneC := false }

/-- How a call of `Close` ends: it returns, or it waits at `<-p.doneC` for
`Run` to terminate, or it faults. -/
inductive CloseResult where
  | returned (p : Peer)
  | waiting (p : Peer)
  | fault (f : ChanFault)
deriving DecidableEq, Repr

/-- Modelled from the spec: `peerconn.Conn.Close` is not among the embedded
files; the session owns its transport and closing it marks the transport
closed, whether or not it was closed before. -/
def connClose (p : Peer) : Peer :=
  { p with connClosed := true }

/-- The method `Peer.Close`: `close(p.closeC)`, then `p.Conn.Close()`, then
the receive from `p.doneC`. Closing a closed channel is a fault. -/
def Peer.Close (p : Peer) : CloseResult :=
  if p.closeC then .fault .closeOfClosedChannel
  else
    let p1 := connClose { p with closeC := true }
    if p1.doneC then .returned p1 else .waiting p1

/-- What a run of `Peer.Run` has done: the state of the session, the sends on
the events channel `p.messages` in order, and the sends on `p.disconnect`. -/
structure RunResult (M : Type) where
  p : Peer
  messages : List (Message M)
  disconnect : List Nat
deriving DecidableEq, Repr

/-- How a select of `Run` goes. `send`: the receiver takes the value, the
send case is taken. `close`: the case `<-p.closeC` is taken, which needs
`closeC` closed, by a call of `Close` before or during the run. `block`: no
receiver ever takes the value and `closeC` is never closed, the goroutine
waits in the select forever. -/
inductive SelectCase where
  | send
  | close
  | block
deriving DecidableEq, Repr

/-- The case that the select numbered `k` takes in the session `p`. When
`closeC` is already closed the receive from it is ready, so a select whose
send finds no receiver takes that case instead of waiting. -/
def selectCase (p : Peer) (sel : Nat → SelectCase) (k : Nat) : SelectCase :=
  match sel k with
  | .send => .send
  | .close => .close
  | .block => if p.closeC then .close else .block

/-- The loop of `Peer.Run` over the messages the connection delivers, then
the final select; the selects are numbered from `k`. The result is the list
of sends on `p.messages`, the list of sends on `p.disconnect`, and whether
the body of `Run` comes to its end (`false`: it waits in a select forever). -/
def runLoop {M : Type} (p : Peer) (sel : Nat → SelectCase) :
    Nat → List M → List (Message M) × List Nat × Bool
  | k, [] =>
    match selectCase p sel k with
    | .send => ([], [p.addr], true)
    | .close => ([], [], true)
    | .block => ([], [], false)
  | k, m :: rest =>
    match selectCase p sel k with
    | .send =>
      let r := runLoop p sel (k + 1) rest
      ({ Peer := p.addr, Message := m } :: r.1, r.2.1, r.2.2)
    | .close => ([], [], true)
    | .block => ([], [], false)

/-- How a call of `Run` ends: it returns, after the deferred `close(p.doneC)`;
or it waits forever in a select, `doneC` untouched; or the deferred
`close(p.doneC)` finds `doneC` closed and faults, after the sends of the body
have been made. -/
inductive RunOutcome (M : Type) where
  | returned (r : RunResult M)
  | blocked (r : RunResult M)
  | fault (f : ChanFault) (r : RunResult M)
deriving DecidableEq, Repr

/-- The method `Peer.Run` on the finite sequence `inbound` that
`p.Conn.Messages()` delivers before it is closed. The deferred
`close(p.doneC)` runs when the body comes to its end and faults on a closed
`doneC`. -/
def Peer.Run {M : Type} (p : Peer) (inbound : List M) (sel : Nat → SelectCase) :
    RunOutcome M :=
  let r := runLoop p sel 0 inbound
  if r.2.2 = false then .blocked { p := p, messages := r.1, disconnect := r.2.1 }
  else if p.doneC then
    .fault .closeOfClosedChannel { p := p, messages := r.1, disconnect := r.2.1 }
  else .returned { p := { p with doneC := true }, messages := r.1, disconnect := r.2.1 }

/-- The type `ByDownloadRate`, a slice of pointers to peers; the elements are
the peers they point to, none of them nil. -/
abbrev ByDownloadRate := List Peer

/-- The method `ByDownloadRate.Len`. -/
def ByDownloadRate.Len (a : ByDownloadRate) : Nat :=
  a.length

/-- The method `ByDownloadRate.Swap`: `a[i], a[j] = a[j], a[i]`. An index out
of range is a fault. -/
def ByDownloadRate.Swap (a : ByDownloadRate) (i j : Nat) : Except Fault ByDownloadRate :=
  match a[i]?, a[j]? with
  | some x, some y => .ok ((a.set i y).set j x)
  | _, _ => .error .indexOutOfRange

/-- The method `ByDownloadRate.Less`. -/
def ByDownloadRate.Less (a : ByDownloadRate) (i j : Nat) : Except Fault Bool :=
  match a[i]?, a[j]? with
  | some x, some y =>
    .ok (decide (x.BytesDownlaodedInChokePeriod > y.BytesDownlaodedInChokePeriod))
  | _, _ => .error .indexOutOfRange

/-- A sequence of calls of `Swap`, the only way a sort that is given the
three methods changes the slice. -/
def ByDownloadRate.Swaps (a : ByDownloadRate) : List (Nat × Nat) → Except Fault ByDownloadRate
  | [] => .ok a
  | (i, j) :: rest =>
    match ByDownloadRate.Swap a i j with
    | .error e => .error e
    | .ok b => ByDownloadRate.Swaps b rest

/-- Example session at address 1 whose `Run` has terminated. -/
def exSession : Peer := { New 1 with doneC := true }

/-- Example peers with the download counts 5, 9, 5 and 2. -/
def exRates : ByDownloadRate :=
  [{ New 10 with BytesDownlaodedInChokePeriod := 5 },
   { New 11 with BytesDownlaodedInChokePeriod := 9 },
   { New 12 with BytesDownlaodedInChokePeriod := 5 },
   { New 13 with BytesDownlaodedInChokePeriod := 2 }]

end peer

/-! ## What a run of the scheduling loop does -/

/-- The relation between the state `d` in which the scheduling loop starts
and the state `d1` in which it returns. Nothing leaves the registry; the
embedded pieces and the having peers are as before; a downloader that is new
in the registry has a new address and targets the piece and the peer that
`nextDownload` returns in `d` for some visiting order; a `requestedPeers`
entry of `d` is still there or has been replaced by a new downloader; and
`requestedPeers` of the piece of a new downloader holds, under its peer, a
new downloader. -/
structure TickEffect (d d1 : Downloader) : Prop where
  subset : d.downloads ⊆ d1.downloads
  view : d1.pieces.map (fun p => (p.Piece, p.havingPeers)) =
    d.pieces.map (fun p => (p.Piece, p.havingPeers))
  heap : d.heap ≤ d1.heap
  started : ∀ pd ∈ d1.downloads, pd ∉ d.downloads →
    d.heap ≤ pd.addr ∧
    ∃ ord : Nat → List PeerPtr → List PeerPtr, (∀ k l, (ord k l).Perm l) ∧
      (d.nextDownload ord).ok = true ∧
      ∃ pi : piece.Piece, (d.nextDownload ord).pi = some pi ∧
        pd.PieceIndex = pi.Index ∧ pd.Peer = (d.nextDownload ord).pe
  kept : ∀ (k : Nat) (q : Piece) (pe : PeerPtr) (x : PieceDownloader),
    d.pieces[k]? = some q → mapGet q.requestedPeers pe = some x →
    ∃ (q1 : Piece) (y : PieceDownloader), d1.pieces[k]? = some q1 ∧
      mapGet q1.requestedPeers pe = some y ∧ (y = x ∨ y ∉ d.downloads)
  registered : ∀ pd ∈ d1.downloads, pd ∉ d.downloads →
    ∃ (q1 : Piece) (y : PieceDownloader), d1.pieces[pd.PieceIndex]? = some q1 ∧
      mapGet q1.requestedPeers pd.Peer = some y ∧ y ∈ d1.downloads ∧ y ∉ d.downloads

/-! ## Example runs -/

/-- The state after the event `e` in `d`; `d` itself when the step faults. -/
def Downloader.after (d : Downloader) (e : Event) : Downloader :=
  match d.Run e with
  | .ok d1 => d1
  | .error _ => d

/-- The state after the downloader at address 3 has ended with an error in
`exTick`: all four downloaders are still registered. -/
def exFailFull : Downloader := exTick.after (.done ⟨3, 0, exPeerP⟩ true)

/-- The state after all four downloaders of `exTick` have ended with an
error. -/
def exStuck : Downloader :=
  (((exTick.after (.done ⟨3, 0, exPeerP⟩ true)).after (.done ⟨2, 0, exPeerP⟩ true)).after
    (.done ⟨1, 0, exPeerP⟩ true)).after (.done ⟨0, 0, exPeerP⟩ true)

/-- A run in which piece 0 is completed and then both example peers announce
piece 1. Of the four downloaders of `exTick` the one at address 0 finishes
without error and the piece store marks piece 0 valid. -/
def exRun1 : Downloader :=
  (((exTick.after (.done ⟨0, 0, exPeerP⟩ false)).setOK 0 true).after
    (.Have exPeerP 1)).after (.Have exPeerQ 1)

/-- The run goes on: a tick that visits the having peers in reverse starts the
downloader at address 4 for piece 1 with peer 7, and the downloader at
address 1 finishes without error, so that three downloaders are registered. -/
def exRun2 : Downloader :=
  (exRun1.after (.tick (fun _ => ordRev))).after (.done ⟨1, 0, exPeerP⟩ false)

/-- The downloader at address 4, for piece 1 with peer 7, ends with an
error. -/
def exFail : Downloader := exRun2.after (.done ⟨4, 1, exPeerP⟩ true)

/-- The state after the next tick, again visiting in reverse. -/
def exRetry : Downloader := exFail.after (.tick (fun _ => ordRev))

/-- The state after `New exData`, a `Have(0)` from peer 7 and a `Have(0)` with
a nil peer. -/
def exNilHave : Downloader := exHave.after (.Have none 0)

/-- The slot of piece 1 in `exFail`: both example peers have the piece and
the failed downloader is still registered under peer 7. -/
def exFailSlot1 : Piece :=
  { Piece := { Index := 1, OK := false }, index := 1,
    havingPeers := [exPeerP, exPeerQ],
    requestedPeers := [(exPeerP, ⟨4, 1, exPeerP⟩)] }

/-! ## Lemmas on maps -/

theorem mapGet_mapDelete_self {K V : Type} [DecidableEq K] (m : List (K × V)) (k : K) :
    mapGet (mapDelete m k) k = none := by
  induction m with
  | nil => rfl
  | cons kv rest ih =>
    obtain ⟨k1, v⟩ := kv
    by_cases h : k1 = k
    · simpa [mapDelete, h] using ih
    · simpa [mapDelete, h, mapGet] using ih

theorem mapGet_mapDelete_ne {K V : Type} [DecidableEq K] (m : List (K × V)) {k k2 : K}
    (hne : k2 ≠ k) : mapGet (mapDelete m k) k2 = mapGet m k2 := by
  induction m with
  | nil => rfl
  | cons kv rest ih =>
    obtain ⟨k1, v⟩ := kv
    by_cases h : k1 = k
    · have h2 : ¬ k1 = k2 := fun e => hne (e.symm.trans h)
      have e1 : mapDelete ((k1, v) :: rest) k = mapDelete rest k := by simp [mapDelete, h]
      rw [e1, ih]
      simp [mapGet, h2]
    · have e1 : mapDelete ((k1, v) :: rest) k = (k1, v) :: mapDelete rest k := by
        simp [mapDelete, h]
      rw [e1]
      by_cases h3 : k1 = k2
      · simp [mapGet, h3]
      · simp [mapGet, h3, ih]

theorem mapGet_mapSet_self {K V : Type} [DecidableEq K] (m : List (K × V)) (k : K) (v : V) :
    mapGet (mapSet m k v) k = some v := by
  simp [mapSet, mapGet]

theorem mapGet_mapSet_ne {K V : Type} [DecidableEq K] (m : List (K × V)) {k k2 : K} (v : V)
    (hne : k2 ≠ k) : mapGet (mapSet m k v) k2 = mapGet m k2 := by
  have h : ¬ k = k2 := fun e => hne e.symm
  simp [mapSet, mapGet, h, mapGet_mapDelete_ne m hne]

theorem mem_setAdd {K : Type} [DecidableEq K] (m : List K) (k x : K) :
    x ∈ setAdd m k ↔ x ∈ m ∨ x = k := by
  unfold setAdd
  split
  · constructor
    · exact Or.inl
    · rintro (h | h)
      · exact h
      · subst h; assumption
  · simp

theorem setAdd_idem {K : Type} [DecidableEq K] (m : List K) (k : K) :
    setAdd (setAdd m k) k = setAdd m k := by
  have h : k ∈ setAdd m k := (mem_setAdd m k k).2 (Or.inr rfl)
  show (if k ∈ setAdd m k then setAdd m k else setAdd m k ++ [k]) = setAdd m k
  rw [if_pos h]

/-! ## Lemmas on `New` -/

theorem newPieces_getElem? (l : List piece.Piece) :
    ∀ (k i : Nat) (p : Piece), (newPieces k l)[i]? = some p →
      ∃ q, l[i]? = some q ∧
        p = { Piece := q, index := k + i, havingPeers := [], requestedPeers := [] } := by
  induction l with
  | nil => intro k i p h; simp [newPieces] at h
  | cons a rest ih =>
    intro k i p h
    cases i with
    | zero =>
      simp [newPieces] at h
      exact ⟨a, by simp, h.symm⟩
    | succ i =>
      simp [newPieces] at h
      obtain ⟨q, hq, hp⟩ := ih (k + 1) i p h
      refine ⟨q, by simpa using hq, ?_⟩
      rw [hp]
      congr 1
      omega

theorem newPieces_length (l : List piece.Piece) : ∀ k, (newPieces k l).length = l.length := by
  induction l with
  | nil => intro k; rfl
  | cons a rest ih => intro k; simp [newPieces, ih]

/-! ## Lemmas on piece selection -/

theorem rangeAssign_mem (keys : List PeerPtr) :
    ∀ pe, keys ≠ [] → rangeAssign pe keys ∈ keys := by
  induction keys with
  | nil => intro pe h; exact absurd rfl h
  | cons a rest ih =>
    intro pe _
    by_cases hr : rest = []
    · subst hr; simp [rangeAssign]
    · have := ih a hr
      simp only [rangeAssign, List.foldl_cons] at this ⊢
      exact List.mem_cons_of_mem _ this

/-- What a successful selection returns: the embedded piece of some slot `j`
that is incomplete and has the returned peer among its having peers, every
earlier slot being complete, without having peers, or left with a nil peer by
its range statement. -/
theorem nextDownloadLoop_ok (ord : Nat → List PeerPtr → List PeerPtr)
    (hord : ∀ k l, (ord k l).Perm l) :
    ∀ (ps : List Piece) (k : Nat) (pe0 : PeerPtr),
      (nextDownloadLoop ord k ps pe0).ok = true →
      ∃ (j : Nat) (p : Piece), ps[j]? = some p ∧
        (nextDownloadLoop ord k ps pe0).pi = some p.Piece ∧
        p.Piece.OK = false ∧ p.havingPeers ≠ [] ∧
        (nextDownloadLoop ord k ps pe0).pe ∈ p.havingPeers ∧
        (nextDownloadLoop ord k ps pe0).pe ≠ none ∧
        ∀ (i : Nat) (q : Piece), i < j → ps[i]? = some q →
          q.Piece.OK = true ∨ q.havingPeers = [] ∨ none ∈ q.havingPeers := by
  intro ps
  induction ps with
  | nil => intro k pe0 h; simp [nextDownloadLoop] at h
  | cons p rest ih =>
    intro k pe0 h
    have lift : ∀ pe1, (p.Piece.OK = true ∨ p.havingPeers = [] ∨ none ∈ p.havingPeers) →
        nextDownloadLoop ord k (p :: rest) pe0 = nextDownloadLoop ord (k + 1) rest pe1 →
        ∃ (j : Nat) (p' : Piece), (p :: rest)[j]? = some p' ∧
          (nextDownloadLoop ord k (p :: rest) pe0).pi = some p'.Piece ∧
          p'.Piece.OK = false ∧ p'.havingPeers ≠ [] ∧
          (nextDownloadLoop ord k (p :: rest) pe0).pe ∈ p'.havingPeers ∧
          (nextDownloadLoop ord k (p :: rest) pe0).pe ≠ none ∧
          ∀ (i : Nat) (q : Piece), i < j → (p :: rest)[i]? = some q →
            q.Piece.OK = true ∨ q.havingPeers = [] ∨ none ∈ q.havingPeers := by
      intro pe1 hskip heq
      rw [heq] at h ⊢
      obtain ⟨j, p', hj, hpi, hok, hne, hmem, hnn, hmin⟩ := ih (k + 1) pe1 h
      refine ⟨j + 1, p', by simpa using hj, hpi, hok, hne, hmem, hnn, ?_⟩
      intro i q hi hq
      cases i with
      | zero => simp at hq; subst hq; exact hskip
      | succ i => exact hmin i q (by omega) (by simpa using hq)
    by_cases hOK : p.Piece.OK = true
    · exact lift pe0 (Or.inl hOK) (by simp [nextDownloadLoop, hOK])
    · by_cases hlen : p.havingPeers.length = 0
      · exact lift pe0 (Or.inr (Or.inl (List.length_eq_zero.mp hlen)))
          (by simp [nextDownloadLoop, hOK, hlen])
      · have hne : p.havingPeers ≠ [] := fun e => hlen (by simp [e])
        have hne2 : ord k p.havingPeers ≠ [] := fun e => hne (by
          have := (hord k p.havingPeers).length_eq
          rw [e] at this
          exact List.length_eq_zero.mp this.symm)
        have hmem : rangeAssign pe0 (ord k p.havingPeers) ∈ p.havingPeers :=
          (hord k p.havingPeers).mem_iff.mp (rangeAssign_mem _ pe0 hne2)
        by_cases hnil : rangeAssign pe0 (ord k p.havingPeers) = none
        · exact lift none (Or.inr (Or.inr (hnil ▸ hmem)))
            (by simp [nextDownloadLoop, hOK, hlen, hnil])
        · have heq : nextDownloadLoop ord k (p :: rest) pe0 =
              { pi := some p.Piece, pe := rangeAssign pe0 (ord k p.havingPeers), ok := true } := by
            simp [nextDownloadLoop, hOK, hlen, hnil]
          rw [heq]
          refine ⟨0, p, by simp, rfl, by simpa using hOK, hne, hmem, hnil, ?_⟩
          intro i q hi; omega

/-! ## The invariant is kept by every step -/

theorem getElem?_set_cases {l : List Piece} {i j : Nat} {q r : Piece}
    (h : (l.set i q)[j]? = some r) : (j = i ∧ r = q) ∨ (j ≠ i ∧ l[j]? = some r) := by
  rw [List.getElem?_set] at h
  by_cases hij : i = j
  · rw [if_pos hij] at h
    split at h
    · exact Or.inl ⟨hij.symm, (Option.some.inj h).symm⟩
    · exact absurd h (by simp)
  · rw [if_neg hij] at h
    exact Or.inr ⟨fun e => hij e.symm, h⟩

theorem inv_New (data : torrentdata.Data) (h : data.WellIndexed) : Inv (New data) := by
  refine ⟨by simp [New], ?_, ?_, ?_⟩
  · intro k p hk
    obtain ⟨q, hq, hp⟩ := newPieces_getElem? data.Pieces 0 k p hk
    rw [hp]
    exact h k q hq
  · intro k p pe pd hk hget
    obtain ⟨q, _, hp⟩ := newPieces_getElem? data.Pieces 0 k p hk
    rw [hp] at hget
    simp [mapGet] at hget
  · intro pd hpd
    simp [New] at hpd

theorem startDownload_eq {d d1 : Downloader} {pi : piece.Piece} {pe : PeerPtr}
    (hs : d.startDownload pi pe = .ok d1) :
    ∃ p, d.pieces[pi.Index]? = some p ∧
      d1 = { d with
             downloads := insert (piecedownloader.New d.heap pi pe) d.downloads
             pieces := d.pieces.set pi.Index
               { p with requestedPeers :=
                   mapSet p.requestedPeers pe (piecedownloader.New d.heap pi pe) }
             heap := d.heap + 1
             running := insert (piecedownloader.New d.heap pi pe) d.running } := by
  unfold Downloader.startDownload at hs
  cases hp : d.pieces[pi.Index]? with
  | none => simp [hp] at hs
  | some p =>
    simp only [hp] at hs
    exact ⟨p, rfl, (Except.ok.inj hs).symm⟩

theorem inv_startDownload {d d1 : Downloader} {pi : piece.Piece} {pe : PeerPtr} {j : Nat}
    {p : Piece} (hI : Inv d) (hcap : d.downloads.card < parallelPieceDownloads)
    (hj : d.pieces[j]? = some p) (hpi : pi = p.Piece) (hpe : pe ∈ p.havingPeers)
    (hs : d.startDownload pi pe = .ok d1) : Inv d1 := by
  have hidx : pi.Index = j := hpi ▸ hI.indexed j p hj
  obtain ⟨p1, hp1, rfl⟩ := startDownload_eq hs
  rw [hidx] at hp1
  have hpp : p1 = p := Option.some.inj (hp1.symm.trans hj)
  subst hpp
  refine ⟨?_, ?_, ?_, ?_⟩
  · exact le_trans (Finset.card_insert_le _ _) hcap
  · intro k q hk
    rcases getElem?_set_cases hk with ⟨hkj, hq⟩ | ⟨_, hq⟩
    · rw [hq, hkj]; exact (hI.indexed j p1 hj).trans hidx.symm
    · exact hI.indexed k q hq
  · intro k q pe1 pd1 hk hget
    rcases getElem?_set_cases hk with ⟨hkj, hq⟩ | ⟨_, hq⟩
    · rw [hq] at hget ⊢
      by_cases hpe1 : pe1 = pe
      · subst hpe1
        rw [mapGet_mapSet_self] at hget
        have := Option.some.inj hget
        subst this
        exact ⟨hpe, hkj.symm, rfl, Finset.mem_insert_self _ _⟩
      · rw [mapGet_mapSet_ne _ _ hpe1] at hget
        obtain ⟨h1, h2, h3, h4⟩ := hI.requested j p1 pe1 pd1 hj hget
        exact ⟨h1, by rw [h2, hkj, hidx], h3, Finset.mem_insert_of_mem h4⟩
    · obtain ⟨h1, h2, h3, h4⟩ := hI.requested k q pe1 pd1 hq hget
      exact ⟨h1, h2, h3, Finset.mem_insert_of_mem h4⟩
  · intro pd hpd
    have hlt : ∀ x : PieceDownloader, x ∈ d.downloads ∨ x ∈ d.running → x.addr < d.heap + 1 :=
      fun x hx => Nat.lt_succ_of_lt (hI.fresh x hx)
    simp only [Finset.mem_insert] at hpd
    rcases hpd with (h | h) | (h | h)
    · rw [h]; simp [piecedownloader.New]
    · exact hlt pd (Or.inl h)
    · rw [h]; simp [piecedownloader.New]
    · exact hlt pd (Or.inr h)

/-- The shape of a run of the scheduling loop that returns with fuel left:
the cap was reached, or nothing could be selected, or one downloader was
started and the loop went on. -/
theorem tickLoop_succ_ok {ords : Nat → Nat → List PeerPtr → List PeerPtr} {fuel : Nat}
    {d d1 : Downloader} (h : tickLoop ords (fuel + 1) d = .ok d1) :
    (¬ d.downloads.card < parallelPieceDownloads ∧ d1 = d) ∨
    (d.downloads.card < parallelPieceDownloads ∧
      (d.nextDownload (ords fuel)).ok = false ∧ d1 = d) ∨
    (d.downloads.card < parallelPieceDownloads ∧
      (d.nextDownload (ords fuel)).ok = true ∧
      ∃ (pi : piece.Piece) (d2 : Downloader),
        (d.nextDownload (ords fuel)).pi = some pi ∧
        d.startDownload pi (d.nextDownload (ords fuel)).pe = .ok d2 ∧
        tickLoop ords fuel d2 = .ok d1) := by
  rw [tickLoop] at h
  by_cases hcap : d.downloads.card < parallelPieceDownloads
  · rw [if_pos hcap] at h
    dsimp only at h
    by_cases hok : (d.nextDownload (ords fuel)).ok = false
    · rw [if_pos hok] at h
      exact Or.inr (Or.inl ⟨hcap, hok, (Except.ok.inj h).symm⟩)
    · rw [if_neg hok] at h
      refine Or.inr (Or.inr ⟨hcap, by simpa using hok, ?_⟩)
      cases hpi : (d.nextDownload (ords fuel)).pi with
      | none => rw [hpi] at h; exact absurd h (by simp)
      | some pi =>
        rw [hpi] at h
        dsimp only at h
        cases hst : d.startDownload pi (d.nextDownload (ords fuel)).pe with
        | error e => rw [hst] at h; exact absurd h (by simp)
        | ok d2 =>
          rw [hst] at h
          exact ⟨pi, d2, rfl, hst, h⟩
  · rw [if_neg hcap] at h
    exact Or.inl ⟨hcap, (Except.ok.inj h).symm⟩

theorem tickLoop_zero_ok {ords : Nat → Nat → List PeerPtr → List PeerPtr}
    {d d1 : Downloader} (h : tickLoop ords 0 d = .ok d1) :
    ¬ d.downloads.card < parallelPieceDownloads ∧ d1 = d := by
  rw [tickLoop] at h
  by_cases hcap : d.downloads.card < parallelPieceDownloads
  · rw [if_pos hcap] at h; exact absurd h (by simp)
  · rw [if_neg hcap] at h; exact ⟨hcap, (Except.ok.inj h).symm⟩

theorem inv_tickLoop (ords : Nat → Nat → List PeerPtr → List PeerPtr)
    (hords : ∀ n k l, (ords n k l).Perm l) :
    ∀ (fuel : Nat) (d d1 : Downloader), Inv d → tickLoop ords fuel d = .ok d1 → Inv d1 := by
  intro fuel
  induction fuel with
  | zero =>
    intro d d1 hI h
    rw [(tickLoop_zero_ok h).2]; exact hI
  | succ fuel ih =>
    intro d d1 hI h
    rcases tickLoop_succ_ok h with ⟨_, rfl⟩ | ⟨_, _, rfl⟩ | ⟨hcap, hok, pi, d2, hsel, hstart, hrest⟩
    · exact hI
    · exact hI
    · obtain ⟨j, p, hj, hpi, _, _, hmem, _, _⟩ :=
        nextDownloadLoop_ok (ords fuel) (hords fuel) d.pieces 0 none hok
      have hpi1 : pi = p.Piece := Option.some.inj (hsel.symm.trans hpi)
      exact ih d2 d1 (inv_startDownload hI hcap hj hpi1 hmem hstart) hrest

theorem onHave_eq {d d1 : Downloader} {pe : PeerPtr} {i : Nat} (h : d.onHave pe i = .ok d1) :
    ∃ p, d.pieces[i]? = some p ∧
      d1 = { d with pieces := d.pieces.set i
                      { p with havingPeers := setAdd p.havingPeers pe } } := by
  unfold Downloader.onHave at h
  cases hp : d.pieces[i]? with
  | none => simp [hp] at h
  | some p =>
    simp only [hp] at h
    exact ⟨p, rfl, (Except.ok.inj h).symm⟩

theorem inv_onHave {d d1 : Downloader} {pe : PeerPtr} {i : Nat} (hI : Inv d)
    (h : d.onHave pe i = .ok d1) : Inv d1 := by
  obtain ⟨p, hp, rfl⟩ := onHave_eq h
  refine ⟨hI.cap, ?_, ?_, hI.fresh⟩
  · intro k q hk
    rcases getElem?_set_cases hk with ⟨hki, hq⟩ | ⟨_, hq⟩
    · rw [hq, hki]; exact hI.indexed i p hp
    · exact hI.indexed k q hq
  · intro k q pe1 pd1 hk hget
    rcases getElem?_set_cases hk with ⟨hki, hq⟩ | ⟨_, hq⟩
    · rw [hq] at hget ⊢
      obtain ⟨h1, h2, h3, h4⟩ := hI.requested i p pe1 pd1 hp hget
      exact ⟨(mem_setAdd _ _ _).2 (Or.inl h1), by rw [h2, hki], h3, h4⟩
    · exact hI.requested k q pe1 pd1 hq hget

theorem downloadPiece_ok_eq {d d1 : Downloader} {pd : PieceDownloader}
    (h : d.downloadPiece pd false = .ok d1) :
    ∃ p, d.pieces[pd.PieceIndex]? = some p ∧
      d1 = { d with
             bitfield := bitfieldSet d.bitfield pd.PieceIndex
             downloads := d.downloads.erase pd
             pieces := d.pieces.set pd.PieceIndex
               { p with requestedPeers := mapDelete p.requestedPeers pd.Peer }
             running := d.running.erase pd } := by
  unfold Downloader.downloadPiece at h
  cases hp : d.pieces[pd.PieceIndex]? with
  | none => simp [hp] at h
  | some p =>
    simp only [hp] at h
    rw [if_neg (by decide)] at h
    exact ⟨p, rfl, (Except.ok.inj h).symm⟩

theorem downloadPiece_err_eq {d d1 : Downloader} {pd : PieceDownloader}
    (h : d.downloadPiece pd true = .ok d1) :
    d1 = { d with running := d.running.erase pd } := by
  unfold Downloader.downloadPiece at h
  rw [if_pos rfl] at h
  exact (Except.ok.inj h).symm

theorem inv_downloadPiece {d d1 : Downloader} {pd : PieceDownloader} {err : Bool} (hI : Inv d)
    (h : d.downloadPiece pd err = .ok d1) : Inv d1 := by
  cases err with
  | true =>
    rw [downloadPiece_err_eq h]
    refine ⟨hI.cap, hI.indexed, hI.requested, ?_⟩
    intro x hx
    rcases hx with hx | hx
    · exact hI.fresh x (Or.inl hx)
    · exact hI.fresh x (Or.inr (Finset.mem_of_mem_erase hx))
  | false =>
    obtain ⟨p, hp, rfl⟩ := downloadPiece_ok_eq h
    refine ⟨le_trans (Finset.card_erase_le) hI.cap, ?_, ?_, ?_⟩
    · intro k q hk
      rcases getElem?_set_cases hk with ⟨hki, hq⟩ | ⟨_, hq⟩
      · rw [hq, hki]; exact hI.indexed _ p hp
      · exact hI.indexed k q hq
    · intro k q pe1 pd1 hk hget
      rcases getElem?_set_cases hk with ⟨hki, hq⟩ | ⟨hki, hq⟩
      · rw [hq] at hget ⊢
        by_cases hpe : pe1 = pd.Peer
        · rw [hpe, mapGet_mapDelete_self] at hget
          exact absurd hget (by simp)
        · rw [mapGet_mapDelete_ne _ hpe] at hget
          obtain ⟨h1, h2, h3, h4⟩ := hI.requested _ p pe1 pd1 hp hget
          refine ⟨h1, by rw [h2, hki], h3, Finset.mem_erase.2 ⟨?_, h4⟩⟩
          intro e
          exact hpe (by rw [← h3, e])
      · obtain ⟨h1, h2, h3, h4⟩ := hI.requested k q pe1 pd1 hq hget
        refine ⟨h1, h2, h3, Finset.mem_erase.2 ⟨?_, h4⟩⟩
        intro e
        exact hki (by rw [← h2, e])
    · intro x hx
      rcases hx with hx | hx
      · exact hI.fresh x (Or.inl (Finset.mem_of_mem_erase hx))
      · exact hI.fresh x (Or.inr (Finset.mem_of_mem_erase hx))

theorem inv_setOK (d : Downloader) (i : Nat) (ok : Bool) (hI : Inv d) : Inv (d.setOK i ok) := by
  unfold Downloader.setOK
  cases hp : d.pieces[i]? with
  | none => exact hI
  | some p =>
    refine ⟨hI.cap, ?_, ?_, hI.fresh⟩
    · intro k q hk
      rcases getElem?_set_cases hk with ⟨hki, hq⟩ | ⟨_, hq⟩
      · rw [hq, hki]; exact hI.indexed i p hp
      · exact hI.indexed k q hq
    · intro k q pe1 pd1 hk hget
      rcases getElem?_set_cases hk with ⟨hki, hq⟩ | ⟨_, hq⟩
      · rw [hq] at hget ⊢
        obtain ⟨h1, h2, h3, h4⟩ := hI.requested i p pe1 pd1 hp hget
        exact ⟨h1, by rw [h2, hki], h3, h4⟩
      · exact hI.requested k q pe1 pd1 hq hget

theorem onPiece_state {d d1 : Downloader} {pe : PeerPtr} {i : Nat} {pd : PieceDownloader}
    (h : d.onPiece pe i = .ok (d1, pd)) :
    d1 = d ∧ ∃ p, d.pieces[i]? = some p ∧ mapGet p.requestedPeers pe = some pd := by
  unfold Downloader.onPiece at h
  cases hp : d.pieces[i]? with
  | none => simp [hp] at h
  | some p =>
    simp only [hp] at h
    cases hg : mapGet p.requestedPeers pe with
    | none => simp [hg] at h
    | some pd1 =>
      simp only [hg] at h
      have := Except.ok.inj h
      simp only [Prod.mk.injEq] at this
      exact ⟨this.1.symm, p, rfl, this.2 ▸ hg⟩

theorem inv_Run {d d1 : Downloader} (e : Event) (hI : Inv d) (he : e.Enabled d)
    (h : d.Run e = .ok d1) : Inv d1 := by
  cases e with
  | tick ords => exact inv_tickLoop ords he _ d d1 hI h
  | Have pe i => exact inv_onHave hI h
  | Choke pe => exact (Except.ok.inj h) ▸ hI
  | Piece pe i =>
    simp only [Downloader.Run] at h
    cases hp : d.onPiece pe i with
    | error e => rw [hp] at h; exact absurd h (by simp [Except.map])
    | ok r =>
      obtain ⟨d2, pd⟩ := r
      rw [hp] at h
      have hd : d2 = d1 := Except.ok.inj h
      rw [← hd, (onPiece_state hp).1]
      exact hI
  | other pe => exact (Except.ok.inj h) ▸ hI
  | done pd err => exact inv_downloadPiece hI h

theorem inv_of_reachable {d : Downloader} (h : Reachable d) : Inv d := by
  induction h with
  | init data hw => exact inv_New data hw
  | step e _ he hs ih => exact inv_Run e ih he hs
  | stored i ok _ ih => exact inv_setOK _ i ok ih

/-! ## More on piece selection -/

/-- What a failed selection means when it starts from a nil peer: no piece
and no peer are returned, and every slot is complete, without having peers,
or has the nil peer among its having peers. -/
theorem nextDownloadLoop_not_ok (ord : Nat → List PeerPtr → List PeerPtr)
    (hord : ∀ k l, (ord k l).Perm l) :
    ∀ (ps : List Piece) (k : Nat),
      (nextDownloadLoop ord k ps none).ok = false →
      (nextDownloadLoop ord k ps none).pi = none ∧
      (nextDownloadLoop ord k ps none).pe = none ∧
      ∀ p ∈ ps, p.Piece.OK = true ∨ p.havingPeers = [] ∨ none ∈ p.havingPeers := by
  intro ps
  induction ps with
  | nil => intro k _; simp [nextDownloadLoop]
  | cons p rest ih =>
    intro k h
    have lift : (p.Piece.OK = true ∨ p.havingPeers = [] ∨ none ∈ p.havingPeers) →
        nextDownloadLoop ord k (p :: rest) none = nextDownloadLoop ord (k + 1) rest none →
        (nextDownloadLoop ord k (p :: rest) none).pi = none ∧
        (nextDownloadLoop ord k (p :: rest) none).pe = none ∧
        ∀ q ∈ p :: rest, q.Piece.OK = true ∨ q.havingPeers = [] ∨ none ∈ q.havingPeers := by
      intro hskip heq
      rw [heq] at h ⊢
      obtain ⟨h1, h2, h3⟩ := ih (k + 1) h
      refine ⟨h1, h2, ?_⟩
      intro q hq
      rcases List.mem_cons.mp hq with e | hq
      · rw [e]; exact hskip
      · exact h3 q hq
    by_cases hOK : p.Piece.OK = true
    · exact lift (Or.inl hOK) (by simp [nextDownloadLoop, hOK])
    · by_cases hlen : p.havingPeers.length = 0
      · exact lift (Or.inr (Or.inl (List.length_eq_zero.mp hlen)))
          (by simp [nextDownloadLoop, hOK, hlen])
      · have hne : p.havingPeers ≠ [] := fun e => hlen (by simp [e])
        have hne2 : ord k p.havingPeers ≠ [] := fun e => hne (by
          have := (hord k p.havingPeers).length_eq
          rw [e] at this
          exact List.length_eq_zero.mp this.symm)
        have hmem : rangeAssign none (ord k p.havingPeers) ∈ p.havingPeers :=
          (hord k p.havingPeers).mem_iff.mp (rangeAssign_mem _ none hne2)
        by_cases hnil : rangeAssign none (ord k p.havingPeers) = none
        · exact lift (Or.inr (Or.inr (hnil ▸ hmem)))
            (by simp [nextDownloadLoop, hOK, hlen, hnil])
        · have heq : nextDownloadLoop ord k (p :: rest) none =
              { pi := some p.Piece, pe := rangeAssign none (ord k p.havingPeers), ok := true } := by
            simp [nextDownloadLoop, hOK, hlen, hnil]
          rw [heq] at h
          exact absurd h (by simp)

/-- The selection reads the embedded piece and the having peers of a slot and
nothing else. -/
theorem nextDownloadLoop_congr (ord : Nat → List PeerPtr → List PeerPtr) :
    ∀ (ps qs : List Piece) (k : Nat) (pe0 : PeerPtr),
      ps.map (fun p => (p.Piece, p.havingPeers)) = qs.map (fun p => (p.Piece, p.havingPeers)) →
      nextDownloadLoop ord k ps pe0 = nextDownloadLoop ord k qs pe0 := by
  intro ps
  induction ps with
  | nil =>
    intro qs k pe0 h
    cases qs with
    | nil => rfl
    | cons q rest => simp at h
  | cons p rest ih =>
    intro qs k pe0 h
    cases qs with
    | nil => simp at h
    | cons q rest2 =>
      simp only [List.map_cons, List.cons.injEq, Prod.mk.injEq] at h
      obtain ⟨⟨h1, h2⟩, h3⟩ := h
      simp only [nextDownloadLoop, h1, h2]
      rw [ih rest2 (k + 1) pe0 h3, ih rest2 (k + 1) _ h3]

/-! ## Frame lemmas for the bitfield -/

theorem startDownload_bitfield {d d1 : Downloader} {pi : piece.Piece} {pe : PeerPtr}
    (hs : d.startDownload pi pe = .ok d1) : d1.bitfield = d.bitfield := by
  obtain ⟨p, _, rfl⟩ := startDownload_eq hs
  rfl

theorem tickLoop_bitfield (ords : Nat → Nat → List PeerPtr → List PeerPtr) :
    ∀ (fuel : Nat) (d d1 : Downloader), tickLoop ords fuel d = .ok d1 →
      d1.bitfield = d.bitfield := by
  intro fuel
  induction fuel with
  | zero => intro d d1 h; rw [(tickLoop_zero_ok h).2]
  | succ fuel ih =>
    intro d d1 h
    rcases tickLoop_succ_ok h with ⟨_, rfl⟩ | ⟨_, _, rfl⟩ | ⟨_, _, pi, d2, _, hstart, hrest⟩
    · rfl
    · rfl
    · rw [ih d2 d1 hrest, startDownload_bitfield hstart]

theorem bitfieldSet_mono (bits : List Bool) (i j : Nat) (h : bits[j]? = some true) :
    (bitfieldSet bits i)[j]? = some true := by
  unfold bitfieldSet
  rw [List.getElem?_set]
  by_cases hij : i = j
  · rw [if_pos hij]
    have hj : j < bits.length := by
      by_contra hn
      rw [List.getElem?_eq_none_iff.mpr (Nat.le_of_not_lt hn)] at h
      exact absurd h (by simp)
    rw [if_pos (hij ▸ hj)]
  · rw [if_neg hij]; exact h

/-! ## The scheduling loop returns -/

theorem startDownload_card {d d1 : Downloader} {pi : piece.Piece} {pe : PeerPtr} (hI : Inv d)
    (hs : d.startDownload pi pe = .ok d1) : d1.downloads.card = d.downloads.card + 1 := by
  obtain ⟨p, _, rfl⟩ := startDownload_eq hs
  show (insert (piecedownloader.New d.heap pi pe) d.downloads).card = d.downloads.card + 1
  rw [Finset.card_insert_of_not_mem]
  intro hmem
  have hlt := hI.fresh _ (Or.inl hmem)
  simp [piecedownloader.New] at hlt

theorem startDownload_ok {d : Downloader} {j : Nat} {p : Piece} (pe : PeerPtr) (hI : Inv d)
    (hj : d.pieces[j]? = some p) : ∃ d1, d.startDownload p.Piece pe = .ok d1 := by
  have hidx : p.Piece.Index = j := hI.indexed j p hj
  unfold Downloader.startDownload
  rw [hidx, hj]
  exact ⟨_, rfl⟩

/-- In a state that satisfies the invariant the scheduling loop returns a
state, without a fault, as soon as the fuel covers the free places under the
cap. -/
theorem tickLoop_total (ords : Nat → Nat → List PeerPtr → List PeerPtr)
    (hords : ∀ n k l, (ords n k l).Perm l) :
    ∀ (fuel : Nat) (d : Downloader), Inv d →
      parallelPieceDownloads ≤ d.downloads.card + fuel →
      ∃ d1, tickLoop ords fuel d = .ok d1 := by
  intro fuel
  induction fuel with
  | zero =>
    intro d _ hfuel
    rw [tickLoop, if_neg (by omega)]
    exact ⟨d, rfl⟩
  | succ fuel ih =>
    intro d hI hfuel
    rw [tickLoop]
    by_cases hcap : d.downloads.card < parallelPieceDownloads
    · rw [if_pos hcap]
      dsimp only
      by_cases hok : (d.nextDownload (ords fuel)).ok = false
      · rw [if_pos hok]
        exact ⟨d, rfl⟩
      · rw [if_neg hok]
        have hok1 : (d.nextDownload (ords fuel)).ok = true := by simpa using hok
        obtain ⟨j, p, hj, hpi, _, _, hmem, _, _⟩ :=
          nextDownloadLoop_ok (ords fuel) (hords fuel) d.pieces 0 none hok1
        have hpi1 : (d.nextDownload (ords fuel)).pi = some p.Piece := hpi
        obtain ⟨d2, hd2⟩ := startDownload_ok (d.nextDownload (ords fuel)).pe hI hj
        rw [hpi1]
        dsimp only
        rw [hd2]
        dsimp only
        have hI2 : Inv d2 := inv_startDownload hI hcap hj rfl hmem hd2
        have hcard := startDownload_card hI hd2
        exact ih d2 hI2 (by omega)
    · rw [if_neg hcap]
      exact ⟨d, rfl⟩

/-- The tick case returns a state in every reachable state. -/
theorem tick_total (d : Downloader) (hr : Reachable d)
    (ords : Nat → Nat → List PeerPtr → List PeerPtr) (hords : ∀ n k l, (ords n k l).Perm l) :
    ∃ d1, d.tick ords = .ok d1 :=
  tickLoop_total ords hords parallelPieceDownloads d (inv_of_reachable hr) (by omega)

/-! ## The example states are reachable -/

theorem ordId_perm (k : Nat) (l : List PeerPtr) : (ordId k l).Perm l := List.Perm.refl l

theorem ordRev_perm (k : Nat) (l : List PeerPtr) : (ordRev k l).Perm l := List.reverse_perm l

theorem ordsAlt_perm (n k : Nat) (l : List PeerPtr) : (ordsAlt n k l).Perm l := by
  unfold ordsAlt
  split
  · exact ordId_perm k l
  · exact ordRev_perm k l

theorem exData_wellIndexed : exData.WellIndexed := by
  intro i p h
  match i with
  | 0 => simp [exData] at h; rw [← h]
  | 1 => simp [exData] at h; rw [← h]
  | n + 2 => simp [exData] at h

theorem reachable_exHave : Reachable exHave :=
  Reachable.step (.Have exPeerP 0) (Reachable.init exData exData_wellIndexed) trivial
    (by decide)

theorem reachable_exTick : Reachable exTick :=
  Reachable.step (.tick (fun _ => ordId)) reachable_exHave (fun _ k l => ordId_perm k l)
    (by decide)

theorem reachable_exHave2 : Reachable exHave2 :=
  Reachable.step (.Have exPeerQ 0) reachable_exHave trivial (by decide)

/-- C1 (parallel cap): in every state reachable from `New` by the steps of
the coordinator, the number of registered downloaders `len(d.downloads)` is
at most `parallelPieceDownloads`, which is 4. -/
theorem parallel_cap (d : Downloader) (h : Reachable d) :
    d.downloads.card ≤ parallelPieceDownloads ∧ parallelPieceDownloads = 4 :=
  ⟨(inv_of_reachable h).cap, rfl⟩

/-- Witness of C1: the state after one tick holds exactly four downloaders. -/
theorem parallel_cap_witness :
    Reachable exTick ∧ exTick.downloads.card = 4 ∧
      (exTick.downloads.card ≤ parallelPieceDownloads ∧ parallelPieceDownloads = 4) :=
  ⟨reachable_exTick, by decide, parallel_cap exTick reachable_exTick⟩

/-- C3 (requested implies having): in every reachable state, for every slot,
every peer that is a key of `requestedPeers` is a member of the slot's
`havingPeers`. -/
theorem requested_implies_having (d : Downloader) (h : Reachable d)
    (k : Nat) (p : Piece) (pe : PeerPtr)
    (hk : d.pieces[k]? = some p)
    (hkey : (mapGet p.requestedPeers pe).isSome = true) :
    pe ∈ p.havingPeers := by
  obtain ⟨pd, hpd⟩ := Option.isSome_iff_exists.mp hkey
  exact ((inv_of_reachable h).requested k p pe pd hk hpd).1

/-- Witness of C3: in the state after one tick the requested peer of slot 0
is one of its having peers. -/
theorem requested_implies_having_witness :
    Reachable exTick ∧ exPeerP ∈ [exPeerP] :=
  ⟨reachable_exTick,
    requested_implies_having exTick reachable_exTick 0
      { Piece := { Index := 0, OK := false }, index := 0,
        havingPeers := [exPeerP], requestedPeers := [(exPeerP, ⟨3, 0, exPeerP⟩)] }
      exPeerP (by decide) (by decide)⟩

/-! ## Piece selection -/

/-- C4 (sequential piece selection): for every piece table and every order in
which the range statements visit their keys, `nextDownload` returns
`ok = true` exactly when some piece is incomplete and has a non-empty
`havingPeers`; then the returned piece is the embedded piece of the first such
slot and the returned peer is a member of that slot's `havingPeers`; when `ok`
is false neither a piece nor a peer is returned. The keys of `havingPeers` are
the sessions that sent a `Have`, which tag their messages with themselves, so
they are not nil (`hnn`). -/
theorem nextDownload_sequential (d : Downloader) (ord : Nat → List PeerPtr → List PeerPtr)
    (hord : ∀ k l, (ord k l).Perm l)
    (hnn : ∀ p ∈ d.pieces, (none : PeerPtr) ∉ p.havingPeers) :
    ((d.nextDownload ord).ok = true ↔
      ∃ p ∈ d.pieces, p.Piece.OK = false ∧ p.havingPeers ≠ []) ∧
    ((d.nextDownload ord).ok = true →
      ∃ (j : Nat) (p : Piece), d.pieces[j]? = some p ∧
        (d.nextDownload ord).pi = some p.Piece ∧
        p.Piece.OK = false ∧ p.havingPeers ≠ [] ∧
        (d.nextDownload ord).pe ∈ p.havingPeers ∧
        ∀ (i : Nat) (q : Piece), i < j → d.pieces[i]? = some q →
          q.Piece.OK = true ∨ q.havingPeers = []) ∧
    ((d.nextDownload ord).ok = false →
      (d.nextDownload ord).pi = none ∧ (d.nextDownload ord).pe = none) := by
  have hok : (d.nextDownload ord).ok = true →
      ∃ (j : Nat) (p : Piece), d.pieces[j]? = some p ∧
        (d.nextDownload ord).pi = some p.Piece ∧
        p.Piece.OK = false ∧ p.havingPeers ≠ [] ∧
        (d.nextDownload ord).pe ∈ p.havingPeers ∧
        ∀ (i : Nat) (q : Piece), i < j → d.pieces[i]? = some q →
          q.Piece.OK = true ∨ q.havingPeers = [] := by
    intro h
    obtain ⟨j, p, hj, hpi, hOK, hne, hmem, _, hmin⟩ :=
      nextDownloadLoop_ok ord hord d.pieces 0 none h
    refine ⟨j, p, hj, hpi, hOK, hne, hmem, ?_⟩
    intro i q hi hq
    rcases hmin i q hi hq with h1 | h1 | h1
    · exact Or.inl h1
    · exact Or.inr h1
    · exact absurd h1 (hnn q (List.getElem?_mem hq))
  refine ⟨⟨?_, ?_⟩, hok, ?_⟩
  · intro h
    obtain ⟨j, p, hj, _, hOK, hne, _, _⟩ := hok h
    exact ⟨p, List.getElem?_mem hj, hOK, hne⟩
  · rintro ⟨p, hp, hOK, hne⟩
    by_contra hno
    have hfalse : (d.nextDownload ord).ok = false := by simpa using hno
    obtain ⟨_, _, hall⟩ := nextDownloadLoop_not_ok ord hord d.pieces 0 hfalse
    rcases hall p hp with h1 | h1 | h1
    · rw [hOK] at h1; exact absurd h1 (by simp)
    · exact hne h1
    · exact hnn p hp h1
  · intro h
    obtain ⟨h1, h2, _⟩ := nextDownloadLoop_not_ok ord hord d.pieces 0 h
    exact ⟨h1, h2⟩

/-- Witness of C4: with two peers having piece 0, the selection in reverse
visiting order returns piece 0. -/
theorem nextDownload_sequential_witness :
    (exHave2.nextDownload ordRev).pi = some { Index := 0, OK := false } ∧
    (exHave2.nextDownload ordRev).pe = exPeerP ∧
    (((exHave2.nextDownload ordRev).ok = true ↔
      ∃ p ∈ exHave2.pieces, p.Piece.OK = false ∧ p.havingPeers ≠ []) ∧
    ((exHave2.nextDownload ordRev).ok = true →
      ∃ (j : Nat) (p : Piece), exHave2.pieces[j]? = some p ∧
        (exHave2.nextDownload ordRev).pi = some p.Piece ∧
        p.Piece.OK = false ∧ p.havingPeers ≠ [] ∧
        (exHave2.nextDownload ordRev).pe ∈ p.havingPeers ∧
        ∀ (i : Nat) (q : Piece), i < j → exHave2.pieces[i]? = some q →
          q.Piece.OK = true ∨ q.havingPeers = []) ∧
    ((exHave2.nextDownload ordRev).ok = false →
      (exHave2.nextDownload ordRev).pi = none ∧ (exHave2.nextDownload ordRev).pe = none)) :=
  ⟨by decide, by decide, nextDownload_sequential exHave2 ordRev ordRev_perm (by decide)⟩

/-- C6 (Have handling): for every peer and every index smaller than the
number of pieces, the `Have` case returns a state in which the peer is a
member of the `havingPeers` of that slot; the slot keeps its other having
peers, its `requestedPeers` and its piece, every other slot is the same, the
number of slots, the registry `downloads` and the bitfield are unchanged, and
processing the same `Have` again returns the same state. -/
theorem onHave_frame (d : Downloader) (pe : PeerPtr) (i : Nat) (hi : i < d.pieces.length) :
    ∃ (d1 : Downloader) (p p1 : Piece),
      d.onHave pe i = .ok d1 ∧ d.pieces[i]? = some p ∧ d1.pieces[i]? = some p1 ∧
      pe ∈ p1.havingPeers ∧
      (∀ x, x ∈ p1.havingPeers ↔ x ∈ p.havingPeers ∨ x = pe) ∧
      p1.requestedPeers = p.requestedPeers ∧ p1.Piece = p.Piece ∧ p1.index = p.index ∧
      (∀ j, j ≠ i → d1.pieces[j]? = d.pieces[j]?) ∧
      d1.pieces.length = d.pieces.length ∧
      d1.downloads = d.downloads ∧ d1.bitfield = d.bitfield ∧
      d1.heap = d.heap ∧ d1.running = d.running ∧
      d1.onHave pe i = .ok d1 := by
  have hp : d.pieces[i]? = some (d.pieces[i]) := List.getElem?_eq_getElem hi
  generalize d.pieces[i] = p at hp
  have hset : (d.pieces.set i { p with havingPeers := setAdd p.havingPeers pe })[i]? =
      some { p with havingPeers := setAdd p.havingPeers pe } := by
    rw [List.getElem?_set, if_pos rfl, if_pos hi]
  refine ⟨{ d with pieces := d.pieces.set i { p with havingPeers := setAdd p.havingPeers pe } },
    p, { p with havingPeers := setAdd p.havingPeers pe }, ?_, hp, hset,
    (mem_setAdd _ _ _).2 (Or.inr rfl), fun x => mem_setAdd _ _ x, rfl, rfl, rfl, ?_, ?_,
    rfl, rfl, rfl, rfl, ?_⟩
  · simp only [Downloader.onHave, hp]
  · intro j hj
    exact List.getElem?_set_ne (fun e => hj e.symm)
  · simp
  · simp only [Downloader.onHave, hset, setAdd_idem, List.set_set]

/-- Witness of C6: `Have(0)` from peer 9 in the state where peer 7 already
has piece 0. -/
theorem onHave_frame_witness :
    exHave.onHave exPeerQ 0 = .ok exHave2 ∧
    ∃ (d1 : Downloader) (p p1 : Piece),
      exHave.onHave exPeerQ 0 = .ok d1 ∧ exHave.pieces[0]? = some p ∧
      d1.pieces[0]? = some p1 ∧
      exPeerQ ∈ p1.havingPeers ∧
      (∀ x, x ∈ p1.havingPeers ↔ x ∈ p.havingPeers ∨ x = exPeerQ) ∧
      p1.requestedPeers = p.requestedPeers ∧ p1.Piece = p.Piece ∧ p1.index = p.index ∧
      (∀ j, j ≠ 0 → d1.pieces[j]? = exHave.pieces[j]?) ∧
      d1.pieces.length = exHave.pieces.length ∧
      d1.downloads = exHave.downloads ∧ d1.bitfield = exHave.bitfield ∧
      d1.heap = exHave.heap ∧ d1.running = exHave.running ∧
      d1.onHave exPeerQ 0 = .ok d1 :=
  ⟨by decide, onHave_frame exHave exPeerQ 0 (by decide)⟩

/-- C7, the code at the failing input: a `Piece` message for piece 0 from a
peer that has no downloader registered in `requestedPeers` of slot 0 is not
dropped; the lookup yields nil and the send on `pd.PieceC` dereferences it.
When a downloader is registered the message goes to that downloader. -/
theorem onPiece_unsolicited_faults :
    exHave.onPiece exPeerP 0 = .error .nilDereference ∧
    exHave.Run (.Piece exPeerP 0) = .error .nilDereference ∧
    exTick.onPiece exPeerQ 0 = .error .nilDereference ∧
    exTick.onPiece exPeerP 0 = .ok (exTick, ⟨3, 0, exPeerP⟩) := by
  decide

/-- C8, the code at the failing input: a `Have` or `Piece` message whose
index is not smaller than the number of pieces is not dropped; the slot
access `d.pieces[index]` is out of range, on a torrent with no piece and on
one with two pieces alike. -/
theorem malformed_index_faults :
    (New { Pieces := [], bitfield := [] }).onHave exPeerP 0 = .error .indexOutOfRange ∧
    (New { Pieces := [], bitfield := [] }).onPiece exPeerP 0 = .error .indexOutOfRange ∧
    (New exData).onHave exPeerP 2 = .error .indexOutOfRange ∧
    (New exData).onPiece exPeerP 2 = .error .indexOutOfRange ∧
    (New exData).Run (.Have exPeerP 2) = .error .indexOutOfRange := by
  decide

/-! ## Retirement of a downloader -/

/-- C9 (retirement on Done): when the downloader `pd` of an existing piece
finishes without error, `downloadPiece` returns a state in which `pd` is not
in `downloads` and `pd.Peer` is not a key of `requestedPeers` of the slot of
its piece; the size of the registry drops by exactly one when `pd` was
registered; every other registry entry, the other keys of that slot, every
other slot and all `havingPeers` are unchanged. -/
theorem downloadPiece_retires (d : Downloader) (pd : PieceDownloader)
    (hi : pd.PieceIndex < d.pieces.length) :
    ∃ (d1 : Downloader) (p p1 : Piece),
      d.downloadPiece pd false = .ok d1 ∧
      d.pieces[pd.PieceIndex]? = some p ∧ d1.pieces[pd.PieceIndex]? = some p1 ∧
      pd ∉ d1.downloads ∧
      mapGet p1.requestedPeers pd.Peer = none ∧
      (pd ∈ d.downloads → d1.downloads.card + 1 = d.downloads.card) ∧
      (∀ x, x ≠ pd → (x ∈ d1.downloads ↔ x ∈ d.downloads)) ∧
      (∀ pe, pe ≠ pd.Peer → mapGet p1.requestedPeers pe = mapGet p.requestedPeers pe) ∧
      p1.havingPeers = p.havingPeers ∧ p1.Piece = p.Piece ∧ p1.index = p.index ∧
      (∀ j, j ≠ pd.PieceIndex → d1.pieces[j]? = d.pieces[j]?) ∧
      d1.pieces.length = d.pieces.length := by
  have hp : d.pieces[pd.PieceIndex]? = some (d.pieces[pd.PieceIndex]) :=
    List.getElem?_eq_getElem hi
  generalize d.pieces[pd.PieceIndex] = p at hp
  refine ⟨{ d with
            bitfield := bitfieldSet d.bitfield pd.PieceIndex
            downloads := d.downloads.erase pd
            pieces := d.pieces.set pd.PieceIndex
              { p with requestedPeers := mapDelete p.requestedPeers pd.Peer }
            running := d.running.erase pd },
    p, { p with requestedPeers := mapDelete p.requestedPeers pd.Peer }, ?_, hp, ?_,
    Finset.not_mem_erase pd d.downloads, mapGet_mapDelete_self _ _, ?_, ?_,
    fun pe hpe => mapGet_mapDelete_ne _ hpe, rfl, rfl, rfl, ?_, ?_⟩
  · simp only [Downloader.downloadPiece, hp]
    rfl
  · show (d.pieces.set pd.PieceIndex _)[pd.PieceIndex]? = _
    rw [List.getElem?_set, if_pos rfl, if_pos hi]
  · intro hmem
    show (d.downloads.erase pd).card + 1 = d.downloads.card
    rw [Finset.card_erase_of_mem hmem]
    have : 0 < d.downloads.card := Finset.card_pos.mpr ⟨pd, hmem⟩
    omega
  · intro x hx
    show x ∈ d.downloads.erase pd ↔ x ∈ d.downloads
    rw [Finset.mem_erase]
    exact ⟨fun h => h.2, fun h => ⟨hx, h⟩⟩
  · intro j hj
    exact List.getElem?_set_ne (fun e => hj e.symm)
  · simp

/-- Witness of C9: in the state after one tick the downloader at address 3,
registered for piece 0 under peer 7, finishes; three downloaders remain. -/
theorem downloadPiece_retires_witness :
    ((exTick.downloadPiece ⟨3, 0, exPeerP⟩ false).toOption.map
      (fun d1 => d1.downloads.card)) = some 3 ∧
    ∃ (d1 : Downloader) (p p1 : Piece),
      exTick.downloadPiece ⟨3, 0, exPeerP⟩ false = .ok d1 ∧
      exTick.pieces[0]? = some p ∧ d1.pieces[0]? = some p1 ∧
      (⟨3, 0, exPeerP⟩ : PieceDownloader) ∉ d1.downloads ∧
      mapGet p1.requestedPeers exPeerP = none ∧
      ((⟨3, 0, exPeerP⟩ : PieceDownloader) ∈ exTick.downloads →
        d1.downloads.card + 1 = exTick.downloads.card) ∧
      (∀ x, x ≠ (⟨3, 0, exPeerP⟩ : PieceDownloader) →
        (x ∈ d1.downloads ↔ x ∈ exTick.downloads)) ∧
      (∀ pe, pe ≠ exPeerP → mapGet p1.requestedPeers pe = mapGet p.requestedPeers pe) ∧
      p1.havingPeers = p.havingPeers ∧ p1.Piece = p.Piece ∧ p1.index = p.index ∧
      (∀ j, j ≠ 0 → d1.pieces[j]? = exTick.pieces[j]?) ∧
      d1.pieces.length = exTick.pieces.length :=
  ⟨by decide, downloadPiece_retires exTick ⟨3, 0, exPeerP⟩ (by decide)⟩

/-- C10 (bitfield effect of a download): a step of the coordinator never
clears a bit; it leaves the bitfield as it is unless it is the return of a
downloader whose run gave no error, and then the bitfield is the old one with
the bit of `pd.Piece.Index` set. The return of a downloader whose run gave an
error always yields a state, with the same bitfield. Recording a verification
outcome in a piece does not touch the bitfield either. -/
theorem bitfield_effect (d d1 : Downloader) (e : Event) (h : d.Run e = .ok d1) :
    (∀ j : Nat, d.bitfield[j]? = some true → d1.bitfield[j]? = some true) ∧
    (d1.bitfield = d.bitfield ∨
      ∃ pd, e = .done pd false ∧ d1.bitfield = bitfieldSet d.bitfield pd.PieceIndex) ∧
    (∀ pd, e = .done pd true → d1.bitfield = d.bitfield) ∧
    (∀ pd, e = .done pd false → d1.bitfield = bitfieldSet d.bitfield pd.PieceIndex) ∧
    (∀ pd, ∃ d2, d.downloadPiece pd true = .ok d2 ∧ d2.bitfield = d.bitfield) ∧
    (∀ i ok, (d.setOK i ok).bitfield = d.bitfield) := by
  have hsame : d1.bitfield = d.bitfield ∨
      ∃ pd, e = .done pd false ∧ d1.bitfield = bitfieldSet d.bitfield pd.PieceIndex := by
    cases e with
    | tick ords => exact Or.inl (tickLoop_bitfield ords _ d d1 h)
    | Have pe i =>
      obtain ⟨p, _, rfl⟩ := onHave_eq h
      exact Or.inl rfl
    | Choke pe => exact Or.inl (by rw [← Except.ok.inj h])
    | Piece pe i =>
      simp only [Downloader.Run] at h
      cases hp : d.onPiece pe i with
      | error e => rw [hp] at h; exact absurd h (by simp [Except.map])
      | ok r =>
        obtain ⟨d2, pd⟩ := r
        rw [hp] at h
        have hd : d2 = d1 := Except.ok.inj h
        rw [← hd, (onPiece_state hp).1]
        exact Or.inl rfl
    | other pe => exact Or.inl (by rw [← Except.ok.inj h])
    | done pd err =>
      cases err with
      | true => rw [downloadPiece_err_eq h]; exact Or.inl rfl
      | false =>
        obtain ⟨p, _, rfl⟩ := downloadPiece_ok_eq h
        exact Or.inr ⟨pd, rfl, rfl⟩
  refine ⟨?_, hsame, ?_, ?_, ?_, ?_⟩
  · intro j hj
    rcases hsame with hs | ⟨pd, _, hs⟩
    · rw [hs]; exact hj
    · rw [hs]; exact bitfieldSet_mono _ _ _ hj
  · intro pd he
    subst he
    rw [downloadPiece_err_eq h]
  · intro pd he
    subst he
    obtain ⟨p, _, rfl⟩ := downloadPiece_ok_eq h
    rfl
  · intro pd
    exact ⟨{ d with running := d.running.erase pd }, rfl, rfl⟩
  · intro i ok
    unfold Downloader.setOK
    cases d.pieces[i]? <;> rfl

/-- Witness of C10: the downloader at address 3 finishes without error in the
state after one tick; bit 0 is set and bit 1 is as before. -/
theorem bitfield_effect_witness :
    exTick.Run (.done ⟨3, 0, exPeerP⟩ false) = .ok exDone ∧
    exTick.bitfield = [false, false] ∧ exDone.bitfield = [true, false] ∧
    (∀ j : Nat, exTick.bitfield[j]? = some true → exDone.bitfield[j]? = some true) ∧
    (∀ pd, Event.done ⟨3, 0, exPeerP⟩ false = .done pd false →
      exDone.bitfield = bitfieldSet exTick.bitfield pd.PieceIndex) :=
  ⟨by decide, rfl, rfl,
    (bitfield_effect exTick exDone (.done ⟨3, 0, exPeerP⟩ false) (by decide)).1,
    (bitfield_effect exTick exDone (.done ⟨3, 0, exPeerP⟩ false) (by decide)).2.2.2.1⟩

/-! ## The peer session -/

theorem runLoop_all_send {M : Type} (p : peer.Peer) (sel : Nat → peer.SelectCase)
    (hsend : ∀ k, sel k = .send) :
    ∀ (inbound : List M) (k : Nat),
      peer.runLoop p sel k inbound =
        (inbound.map (fun m => { Peer := p.addr, Message := m }), [p.addr], true) := by
  intro inbound
  induction inbound with
  | nil => intro k; simp [peer.runLoop, peer.selectCase, hsend k]
  | cons m rest ih => intro k; simp [peer.runLoop, peer.selectCase, hsend k, ih (k + 1)]

/-- A second `Run` on a session whose `doneC` is closed makes its sends and
then faults in the deferred `close(p.doneC)`. -/
theorem run_on_closed_doneC {M : Type} (p : peer.Peer) (inbound : List M)
    (sel : Nat → peer.SelectCase) (hdone : p.doneC = true) (hsend : ∀ k, sel k = .send) :
    peer.Peer.Run p inbound sel =
      .fault .closeOfClosedChannel
        { p := p
          messages := inbound.map (fun m => { Peer := p.addr, Message := m })
          disconnect := [p.addr] } := by
  simp [peer.Peer.Run, runLoop_all_send p sel hsend, hdone]

/-- C12 as stated fails: on a session whose `Run` has terminated the first
`Close` returns, and a second `Close` on the state it leaves does not return
that state, it faults on `close(p.closeC)`. -/
theorem close_idempotent_counterexample :
    ¬ ∀ p : peer.Peer, p.doneC = true →
        ∀ p1 : peer.Peer, p.Close = .returned p1 → p1.Close = .returned p1 := by
  intro hall
  have h := hall peer.exSession rfl
    { peer.exSession with closeC := true, connClosed := true } (by decide)
  exact absurd h (by decide)

/-- C12 amended: `Close` completes once. For every session whose `Run` has
terminated and whose `closeC` is not closed, `Close` returns without a fault
and leaves the session with `closeC` closed and the connection closed, all
other fields as they were; a second call does not complete, closing the
closed channel `closeC` is a fault. -/
theorem close_once (p : peer.Peer) (hdone : p.doneC = true) (hopen : p.closeC = false) :
    ∃ p1 : peer.Peer, p.Close = .returned p1 ∧
      p1 = { p with closeC := true, connClosed := true } ∧
      p1.Close = .fault .closeOfClosedChannel := by
  refine ⟨{ p with closeC := true, connClosed := true }, ?_, rfl, ?_⟩
  · simp [peer.Peer.Close, peer.connClose, hopen, hdone]
  · simp [peer.Peer.Close]

/-- Witness of C12 amended: the session at address 1 after its `Run` has
terminated. -/
theorem close_once_witness :
    ∃ p1 : peer.Peer, peer.exSession.Close = .returned p1 ∧
      p1 = { peer.exSession with closeC := true, connClosed := true } ∧
      p1.Close = .fault .closeOfClosedChannel :=
  close_once peer.exSession rfl rfl

theorem perm_cons_set {α : Type} (x : α) :
    ∀ (t : List α) (j : Nat) (y : α), t[j]? = some y → (x :: t).Perm (y :: t.set j x) := by
  intro t
  induction t with
  | nil => intro j y h; simp at h
  | cons h0 t ih =>
    intro j y h
    cases j with
    | zero =>
      simp at h
      subst h
      exact List.Perm.swap _ _ _
    | succ j =>
      have h1 : t[j]? = some y := by simpa using h
      rw [List.set_cons_succ]
      exact (List.Perm.swap h0 x t).trans
        (((ih j y h1).cons h0).trans (List.Perm.swap y h0 (t.set j x)))

theorem perm_set_set {α : Type} :
    ∀ (a : List α) (i j : Nat) (x y : α), a[i]? = some x → a[j]? = some y →
      ((a.set i y).set j x).Perm a := by
  intro a
  induction a with
  | nil => intro i j x y h; simp at h
  | cons h0 t ih =>
    intro i j x y hi hj
    cases i with
    | zero =>
      have hx : h0 = x := by simpa using hi
      subst hx
      cases j with
      | zero =>
        have hy : h0 = y := by simpa using hj
        subst hy
        simp
      | succ j =>
        have h1 : t[j]? = some y := by simpa using hj
        rw [List.set_cons_zero, List.set_cons_succ]
        exact (perm_cons_set h0 t j y h1).symm
    | succ i =>
      have h1 : t[i]? = some x := by simpa using hi
      cases j with
      | zero =>
        have hy : h0 = y := by simpa using hj
        subst hy
        rw [List.set_cons_succ, List.set_cons_zero]
        exact (perm_cons_set h0 t i x h1).symm
      | succ j =>
        have h2 : t[j]? = some y := by simpa using hj
        rw [List.set_cons_succ, List.set_cons_succ]
        exact (ih i j x y h1 h2).cons h0

theorem less_eq {a : peer.ByDownloadRate} {i j : Nat} {x y : peer.Peer}
    (hi : a[i]? = some x) (hj : a[j]? = some y) :
    peer.ByDownloadRate.Less a i j =
      .ok (decide (x.BytesDownlaodedInChokePeriod > y.BytesDownlaodedInChokePeriod)) := by
  simp only [peer.ByDownloadRate.Less, hi, hj]

theorem less_ok {a : peer.ByDownloadRate} {i j : Nat} {b : Bool}
    (h : peer.ByDownloadRate.Less a i j = .ok b) :
    ∃ x y, a[i]? = some x ∧ a[j]? = some y ∧
      b = decide (x.BytesDownlaodedInChokePeriod > y.BytesDownlaodedInChokePeriod) := by
  cases hi : a[i]? with
  | none => simp [peer.ByDownloadRate.Less, hi] at h
  | some x =>
    cases hj : a[j]? with
    | none => simp [peer.ByDownloadRate.Less, hi, hj] at h
    | some y =>
      rw [less_eq hi hj] at h
      exact ⟨x, y, rfl, rfl, (Except.ok.inj h).symm⟩

theorem less_true_iff (a : peer.ByDownloadRate) (i j : Nat) :
    peer.ByDownloadRate.Less a i j = .ok true ↔
      ∃ x y, a[i]? = some x ∧ a[j]? = some y ∧
        y.BytesDownlaodedInChokePeriod < x.BytesDownlaodedInChokePeriod := by
  constructor
  · intro h
    obtain ⟨x, y, hi, hj, hb⟩ := less_ok h
    exact ⟨x, y, hi, hj, by simpa using hb.symm⟩
  · rintro ⟨x, y, hi, hj, hlt⟩
    rw [less_eq hi hj]
    simp [hlt]

theorem less_false_iff (a : peer.ByDownloadRate) (i j : Nat) :
    peer.ByDownloadRate.Less a i j = .ok false ↔
      ∃ x y, a[i]? = some x ∧ a[j]? = some y ∧
        x.BytesDownlaodedInChokePeriod ≤ y.BytesDownlaodedInChokePeriod := by
  constructor
  · intro h
    obtain ⟨x, y, hi, hj, hb⟩ := less_ok h
    exact ⟨x, y, hi, hj, by simpa using hb.symm⟩
  · rintro ⟨x, y, hi, hj, hle⟩
    rw [less_eq hi hj]
    simp [hle]

theorem swap_ok {a : peer.ByDownloadRate} {i j : Nat} {x y : peer.Peer}
    (hi : a[i]? = some x) (hj : a[j]? = some y) :
    peer.ByDownloadRate.Swap a i j = .ok ((a.set i y).set j x) := by
  simp only [peer.ByDownloadRate.Swap, hi, hj]

theorem swap_perm {a b : peer.ByDownloadRate} {i j : Nat}
    (h : peer.ByDownloadRate.Swap a i j = .ok b) : b.Perm a := by
  cases hi : a[i]? with
  | none => simp [peer.ByDownloadRate.Swap, hi] at h
  | some x =>
    cases hj : a[j]? with
    | none => simp [peer.ByDownloadRate.Swap, hi, hj] at h
    | some y =>
      rw [swap_ok hi hj] at h
      rw [← Except.ok.inj h]
      exact perm_set_set a i j x y hi hj

theorem swaps_perm :
    ∀ (swaps : List (Nat × Nat)) (a b : peer.ByDownloadRate),
      peer.ByDownloadRate.Swaps a swaps = .ok b → b.Perm a := by
  intro swaps
  induction swaps with
  | nil =>
    intro a b h
    rw [← Except.ok.inj h]
  | cons ij rest ih =>
    intro a b h
    obtain ⟨i, j⟩ := ij
    rw [peer.ByDownloadRate.Swaps] at h
    cases hs : peer.ByDownloadRate.Swap a i j with
    | error e => rw [hs] at h; exact absurd h (by simp)
    | ok c =>
      rw [hs] at h
      exact (ih c b h).trans (swap_perm hs)

theorem pairwise_of_no_inversion (b : peer.ByDownloadRate)
    (h : ∀ i j, i < j → peer.ByDownloadRate.Less b j i ≠ .ok true) :
    b.Pairwise (fun x y =>
      y.BytesDownlaodedInChokePeriod ≤ x.BytesDownlaodedInChokePeriod) := by
  rw [List.pairwise_iff_getElem]
  intro i j hi hj hij
  have hne := h i j hij
  rw [less_eq (List.getElem?_eq_getElem hj) (List.getElem?_eq_getElem hi)] at hne
  by_contra hlt
  exact hne (by simp [lt_of_not_le hlt])

/-- C15 (ordering by download rate): `Len` is the length of the slice;
`Less(i, j)` holds exactly when peer `i` has downloaded strictly more bytes in
the choke period than peer `j`, and it returns for all indices in range, so it
is irreflexive, asymmetric and transitive, and being incomparable is
transitive; `Swap(i, j)` puts the old element `j` at `i` and the old element
`i` at `j`, leaves every other position and the length unchanged and gives a
permutation; hence whatever a sequence of swaps returns is a permutation of
the input, and when `Less` finds no later element before an earlier one it is
in non-increasing order of bytes downloaded. -/
theorem byDownloadRate_order (a : peer.ByDownloadRate) :
    peer.ByDownloadRate.Len a = a.length ∧
    (∀ i j, peer.ByDownloadRate.Less a i j = .ok true ↔
      ∃ x y, a[i]? = some x ∧ a[j]? = some y ∧
        y.BytesDownlaodedInChokePeriod < x.BytesDownlaodedInChokePeriod) ∧
    (∀ i j, i < a.length → j < a.length → ∃ b, peer.ByDownloadRate.Less a i j = .ok b) ∧
    (∀ i, peer.ByDownloadRate.Less a i i ≠ .ok true) ∧
    (∀ i j, peer.ByDownloadRate.Less a i j = .ok true →
      peer.ByDownloadRate.Less a j i = .ok false) ∧
    (∀ i j k, peer.ByDownloadRate.Less a i j = .ok true →
      peer.ByDownloadRate.Less a j k = .ok true →
      peer.ByDownloadRate.Less a i k = .ok true) ∧
    (∀ i j k, peer.ByDownloadRate.Less a i j = .ok false →
      peer.ByDownloadRate.Less a j i = .ok false →
      peer.ByDownloadRate.Less a j k = .ok false →
      peer.ByDownloadRate.Less a k j = .ok false →
      peer.ByDownloadRate.Less a i k = .ok false ∧
      peer.ByDownloadRate.Less a k i = .ok false) ∧
    (∀ (i j : Nat) (x y : peer.Peer), a[i]? = some x → a[j]? = some y →
      ∃ b : peer.ByDownloadRate, peer.ByDownloadRate.Swap a i j = .ok b ∧
        b[i]? = some y ∧ b[j]? = some x ∧
        (∀ k : Nat, k ≠ i → k ≠ j → b[k]? = a[k]?) ∧
        b.length = a.length ∧ b.Perm a) ∧
    (∀ (swaps : List (Nat × Nat)) (b : peer.ByDownloadRate),
      peer.ByDownloadRate.Swaps a swaps = .ok b →
      b.Perm a ∧
      ((∀ i j, i < j → peer.ByDownloadRate.Less b j i ≠ .ok true) →
        b.Pairwise (fun x y =>
          y.BytesDownlaodedInChokePeriod ≤ x.BytesDownlaodedInChokePeriod))) := by
  have same : ∀ {i : Nat} {x y : peer.Peer}, a[i]? = some x → a[i]? = some y → x = y :=
    fun h1 h2 => Option.some.inj (h1.symm.trans h2)
  refine ⟨rfl, less_true_iff a, ?_, ?_, ?_, ?_, ?_, ?_, ?_⟩
  · intro i j hi hj
    exact ⟨_, less_eq (List.getElem?_eq_getElem hi) (List.getElem?_eq_getElem hj)⟩
  · intro i h
    obtain ⟨x, y, hx, hy, hlt⟩ := (less_true_iff a i i).mp h
    rw [same hx hy] at hlt
    exact lt_irrefl _ hlt
  · intro i j h
    obtain ⟨x, y, hx, hy, hlt⟩ := (less_true_iff a i j).mp h
    exact (less_false_iff a j i).mpr ⟨y, x, hy, hx, le_of_lt hlt⟩
  · intro i j k h1 h2
    obtain ⟨x, y, hx, hy, hlt1⟩ := (less_true_iff a i j).mp h1
    obtain ⟨y2, z, hy2, hz, hlt2⟩ := (less_true_iff a j k).mp h2
    rw [same hy2 hy] at hlt2
    exact (less_true_iff a i k).mpr ⟨x, z, hx, hz, lt_trans hlt2 hlt1⟩
  · intro i j k h1 h2 h3 h4
    obtain ⟨x, y, hx, hy, hxy⟩ := (less_false_iff a i j).mp h1
    obtain ⟨y2, x2, hy2, hx2, hyx⟩ := (less_false_iff a j i).mp h2
    obtain ⟨y3, z, hy3, hz, hyz⟩ := (less_false_iff a j k).mp h3
    obtain ⟨z2, y4, hz2, hy4, hzy⟩ := (less_false_iff a k j).mp h4
    rw [same hy2 hy, same hx2 hx] at hyx
    rw [same hy3 hy] at hyz
    rw [same hz2 hz, same hy4 hy] at hzy
    exact ⟨(less_false_iff a i k).mpr ⟨x, z, hx, hz, le_trans hxy hyz⟩,
      (less_false_iff a k i).mpr ⟨z, x, hz, hx, le_trans hzy hyx⟩⟩
  · intro i j x y hi hj
    have hil : i < a.length := by
      by_contra hn
      rw [List.getElem?_eq_none_iff.mpr (Nat.le_of_not_lt hn)] at hi
      exact absurd hi (by simp)
    have hjl : j < a.length := by
      by_contra hn
      rw [List.getElem?_eq_none_iff.mpr (Nat.le_of_not_lt hn)] at hj
      exact absurd hj (by simp)
    refine ⟨(a.set i y).set j x, swap_ok hi hj, ?_, ?_, ?_, by simp,
      perm_set_set a i j x y hi hj⟩
    · by_cases hij : j = i
      · subst hij
        rw [List.getElem?_set, if_pos rfl, if_pos (by simpa using hjl)]
        exact congrArg some (same hi hj)
      · rw [List.getElem?_set_ne hij, List.getElem?_set, if_pos rfl, if_pos hil]
    · rw [List.getElem?_set, if_pos rfl, if_pos (by simpa using hjl)]
    · intro k hki hkj
      rw [List.getElem?_set_ne (fun e => hkj e.symm), List.getElem?_set_ne (fun e => hki e.symm)]
  · intro swaps b hb
    exact ⟨swaps_perm swaps a b hb, pairwise_of_no_inversion b⟩

/-- Witness of C15: one swap puts the peers with the download counts
5, 9, 5, 2 in the order 9, 5, 5, 2, a permutation in non-increasing order. -/
theorem byDownloadRate_order_witness :
    ((peer.ByDownloadRate.Swaps peer.exRates [(0, 1)]).toOption.map
      (fun b => b.map (fun x => x.BytesDownlaodedInChokePeriod))) = some [9, 5, 5, 2] ∧
    peer.ByDownloadRate.Less peer.exRates 1 0 = .ok true ∧
    (peer.ByDownloadRate.Less peer.exRates 1 0 = .ok true →
      peer.ByDownloadRate.Less peer.exRates 0 1 = .ok false) ∧
    ((peer.exRates.set 0 (peer.exRates.getD 1 (peer.New 0))).set 1
      (peer.exRates.getD 0 (peer.New 0))).Perm peer.exRates :=
  ⟨by decide, by decide, (byDownloadRate_order peer.exRates).2.2.2.2.1 1 0,
    ((byDownloadRate_order peer.exRates).2.2.2.2.2.2.2.2 [(0, 1)] _ (by decide)).1⟩

/-! ## The effect of the scheduling loop -/

theorem map_set_same {α β : Type} (f : α → β) (l : List α) (i : Nat) (p q : α)
    (hp : l[i]? = some p) (hf : f q = f p) : (l.set i q).map f = l.map f := by
  apply List.ext_getElem?
  intro n
  rw [List.getElem?_map, List.getElem?_map, List.getElem?_set]
  by_cases h : i = n
  · subst h
    have hi : i < l.length := by
      by_contra hn
      rw [List.getElem?_eq_none_iff.mpr (Nat.le_of_not_lt hn)] at hp
      exact absurd hp (by simp)
    rw [if_pos rfl, if_pos hi, hp]
    simp [hf]
  · rw [if_neg h]

theorem view_getElem? {ps qs : List Piece} {j : Nat} {p : Piece}
    (h : ps.map (fun p => (p.Piece, p.havingPeers)) = qs.map (fun p => (p.Piece, p.havingPeers)))
    (hj : ps[j]? = some p) :
    ∃ q, qs[j]? = some q ∧ q.Piece = p.Piece ∧ q.havingPeers = p.havingPeers := by
  have h1 := congrArg (fun l => l[j]?) h
  simp only [List.getElem?_map, hj, Option.map_some'] at h1
  cases hq : qs[j]? with
  | none => rw [hq] at h1; exact absurd h1 (by simp)
  | some q =>
    rw [hq] at h1
    simp only [Option.map_some', Option.some.injEq, Prod.mk.injEq] at h1
    exact ⟨q, rfl, h1.1.symm, h1.2.symm⟩

theorem startDownload_view {d d2 : Downloader} {pi : piece.Piece} {pe : PeerPtr}
    (hs : d.startDownload pi pe = .ok d2) :
    d2.pieces.map (fun p => (p.Piece, p.havingPeers)) =
      d.pieces.map (fun p => (p.Piece, p.havingPeers)) := by
  obtain ⟨p, hp, rfl⟩ := startDownload_eq hs
  exact map_set_same _ d.pieces pi.Index p _ hp rfl

theorem startDownload_registers {d d2 : Downloader} {pi : piece.Piece} {pe : PeerPtr}
    (hs : d.startDownload pi pe = .ok d2) :
    piecedownloader.New d.heap pi pe ∈ d2.downloads ∧
    ∃ p2, d2.pieces[pi.Index]? = some p2 ∧
      mapGet p2.requestedPeers pe = some (piecedownloader.New d.heap pi pe) := by
  obtain ⟨p, hp, rfl⟩ := startDownload_eq hs
  have hi : pi.Index < d.pieces.length := by
    by_contra hn
    rw [List.getElem?_eq_none_iff.mpr (Nat.le_of_not_lt hn)] at hp
    exact absurd hp (by simp)
  refine ⟨Finset.mem_insert_self _ _,
    { p with requestedPeers := mapSet p.requestedPeers pe (piecedownloader.New d.heap pi pe) },
    ?_, mapGet_mapSet_self _ _ _⟩
  show (d.pieces.set pi.Index _)[pi.Index]? = _
  rw [List.getElem?_set, if_pos rfl, if_pos hi]

theorem startDownload_kept {d d2 : Downloader} {pi : piece.Piece} {pe : PeerPtr} (hI : Inv d)
    (hs : d.startDownload pi pe = .ok d2) (k : Nat) (q : Piece) (pe1 : PeerPtr)
    (x : PieceDownloader) (hk : d.pieces[k]? = some q)
    (hx : mapGet q.requestedPeers pe1 = some x) :
    ∃ (q2 : Piece) (y : PieceDownloader), d2.pieces[k]? = some q2 ∧
      mapGet q2.requestedPeers pe1 = some y ∧ (y = x ∨ y ∉ d.downloads) := by
  obtain ⟨p, hp, rfl⟩ := startDownload_eq hs
  have hi : pi.Index < d.pieces.length := by
    by_contra hn
    rw [List.getElem?_eq_none_iff.mpr (Nat.le_of_not_lt hn)] at hp
    exact absurd hp (by simp)
  by_cases hki : k = pi.Index
  · subst hki
    have hqp : q = p := Option.some.inj (hk.symm.trans hp)
    subst hqp
    by_cases hpe : pe1 = pe
    · subst hpe
      let pd0 := piecedownloader.New d.heap pi pe1
      refine ⟨{ q with requestedPeers := mapSet q.requestedPeers pe1 pd0 }, pd0, ?_,
        mapGet_mapSet_self _ _ _, Or.inr ?_⟩
      · show (d.pieces.set pi.Index _)[pi.Index]? = _
        rw [List.getElem?_set, if_pos rfl, if_pos hi]
      · intro hmem
        have hlt : (piecedownloader.New d.heap pi pe1).addr < d.heap :=
          hI.fresh _ (Or.inl hmem)
        simp [piecedownloader.New] at hlt
    · let pd0 := piecedownloader.New d.heap pi pe
      refine ⟨{ q with requestedPeers := mapSet q.requestedPeers pe pd0 }, x, ?_, ?_, Or.inl rfl⟩
      · show (d.pieces.set pi.Index _)[pi.Index]? = _
        rw [List.getElem?_set, if_pos rfl, if_pos hi]
      · show mapGet (mapSet q.requestedPeers pe _) pe1 = some x
        rw [mapGet_mapSet_ne _ _ hpe]
        exact hx
  · refine ⟨q, x, ?_, hx, Or.inl rfl⟩
    show (d.pieces.set pi.Index _)[k]? = _
    rw [List.getElem?_set_ne (fun e => hki e.symm)]
    exact hk

theorem startDownload_downloads {d d2 : Downloader} {pi : piece.Piece} {pe : PeerPtr}
    (hs : d.startDownload pi pe = .ok d2) :
    d2.downloads = insert (piecedownloader.New d.heap pi pe) d.downloads ∧
      d2.heap = d.heap + 1 := by
  obtain ⟨p, _, rfl⟩ := startDownload_eq hs
  exact ⟨rfl, rfl⟩

/-- Induction along the iterations of the scheduling loop: a relation that
holds between a state and itself, and that extends backwards over one started
download, holds between the state in which the loop starts and the state in
which it returns. -/
theorem tickLoop_rel (ords : Nat → Nat → List PeerPtr → List PeerPtr)
    (hords : ∀ n k l, (ords n k l).Perm l) (R : Downloader → Downloader → Prop)
    (hrefl : ∀ d, Inv d → R d d)
    (hstep : ∀ (d d2 d1 : Downloader) (ord : Nat → List PeerPtr → List PeerPtr)
      (pi : piece.Piece), (∀ k l, (ord k l).Perm l) → Inv d → Inv d2 → Inv d1 →
      d.downloads.card < parallelPieceDownloads →
      (d.nextDownload ord).ok = true → (d.nextDownload ord).pi = some pi →
      d.startDownload pi (d.nextDownload ord).pe = .ok d2 → R d2 d1 → R d d1) :
    ∀ (fuel : Nat) (d d1 : Downloader), Inv d → tickLoop ords fuel d = .ok d1 → R d d1 := by
  intro fuel
  induction fuel with
  | zero =>
    intro d d1 hI h
    rw [(tickLoop_zero_ok h).2]; exact hrefl d hI
  | succ fuel ih =>
    intro d d1 hI h
    rcases tickLoop_succ_ok h with ⟨_, rfl⟩ | ⟨_, _, rfl⟩ | ⟨hcap, hok, pi, d2, hsel, hstart, hrest⟩
    · exact hrefl _ hI
    · exact hrefl _ hI
    · obtain ⟨j, p, hj, hpi, _, _, hmem, _, _⟩ :=
        nextDownloadLoop_ok (ords fuel) (hords fuel) d.pieces 0 none hok
      have hpi1 : pi = p.Piece := Option.some.inj (hsel.symm.trans hpi)
      have hI2 : Inv d2 := inv_startDownload hI hcap hj hpi1 hmem hstart
      have hI1 : Inv d1 := inv_tickLoop ords hords fuel d2 d1 hI2 hrest
      exact hstep d d2 d1 (ords fuel) pi (hords fuel) hI hI2 hI1 hcap hok hsel hstart
        (ih d2 d1 hI2 hrest)

theorem tickEffect_refl (d : Downloader) : TickEffect d d :=
  { subset := Finset.Subset.refl _
    view := rfl
    heap := le_refl _
    started := fun _ h1 h2 => absurd h1 h2
    kept := fun _ q _ x hk hx => ⟨q, x, hk, hx, Or.inl rfl⟩
    registered := fun _ h1 h2 => absurd h1 h2 }

theorem tickEffect_step {d d2 d1 : Downloader} {ord : Nat → List PeerPtr → List PeerPtr}
    {pi : piece.Piece} (hord : ∀ k l, (ord k l).Perm l) (hI : Inv d) (hI1 : Inv d1)
    (hok : (d.nextDownload ord).ok = true) (hsel : (d.nextDownload ord).pi = some pi)
    (hstart : d.startDownload pi (d.nextDownload ord).pe = .ok d2) (hE : TickEffect d2 d1) :
    TickEffect d d1 := by
  obtain ⟨hdl, hheap⟩ := startDownload_downloads hstart
  have hsub2 : d.downloads ⊆ d2.downloads := by
    rw [hdl]; exact Finset.subset_insert _ _
  have hview2 := startDownload_view hstart
  have hnew : ∀ pd ∈ d2.downloads, pd ∉ d.downloads →
      pd = piecedownloader.New d.heap pi (d.nextDownload ord).pe := by
    intro pd h1 h2
    rw [hdl, Finset.mem_insert] at h1
    rcases h1 with h1 | h1
    · exact h1
    · exact absurd h1 h2
  refine ⟨hsub2.trans hE.subset, hE.view.trans hview2, ?_, ?_, ?_, ?_⟩
  · have := hE.heap
    omega
  · intro pd h1 h2
    by_cases hmem2 : pd ∈ d2.downloads
    · have hpd := hnew pd hmem2 h2
      subst hpd
      exact ⟨le_refl _, ord, hord, hok, pi, hsel, rfl, rfl⟩
    · obtain ⟨hlt, ord2, hord2, hok2, pi2, hsel2, hidx2, hpe2⟩ := hE.started pd h1 hmem2
      have hcongr : d2.nextDownload ord2 = d.nextDownload ord2 :=
        nextDownloadLoop_congr ord2 d2.pieces d.pieces 0 none hview2
      rw [hcongr] at hok2 hsel2 hpe2
      exact ⟨by omega, ord2, hord2, hok2, pi2, hsel2, hidx2, hpe2⟩
  · intro k q pe x hk hx
    obtain ⟨q2, y2, hk2, hy2, hor2⟩ := startDownload_kept hI hstart k q pe x hk hx
    obtain ⟨q1, y1, hk1, hy1, hor1⟩ := hE.kept k q2 pe y2 hk2 hy2
    refine ⟨q1, y1, hk1, hy1, ?_⟩
    rcases hor1 with h | h
    · rw [h]; exact hor2
    · exact Or.inr (fun hm => h (hsub2 hm))
  · intro pd h1 h2
    by_cases hmem2 : pd ∈ d2.downloads
    · have hpd := hnew pd hmem2 h2
      obtain ⟨_, p2, hp2, hget2⟩ := startDownload_registers hstart
      obtain ⟨q1, y1, hk1, hy1, hor1⟩ := hE.kept _ p2 _ _ hp2 hget2
      have hidx : pd.PieceIndex = pi.Index := by rw [hpd]; rfl
      have hpe : pd.Peer = (d.nextDownload ord).pe := by rw [hpd]; rfl
      refine ⟨q1, y1, by rw [hidx]; exact hk1, by rw [hpe]; exact hy1,
        (hI1.requested _ q1 _ y1 hk1 hy1).2.2.2, ?_⟩
      rcases hor1 with h | h
      · rw [h, ← hpd]; exact h2
      · exact fun hm => h (hsub2 hm)
    · obtain ⟨q1, y1, hk1, hy1, hm1, hn1⟩ := hE.registered pd h1 hmem2
      exact ⟨q1, y1, hk1, hy1, hm1, fun hm => hn1 (hsub2 hm)⟩

theorem tickEffect_tickLoop (ords : Nat → Nat → List PeerPtr → List PeerPtr)
    (hords : ∀ n k l, (ords n k l).Perm l) (fuel : Nat) (d d1 : Downloader) (hI : Inv d)
    (h : tickLoop ords fuel d = .ok d1) : TickEffect d d1 :=
  tickLoop_rel ords hords TickEffect (fun d _ => tickEffect_refl d)
    (fun _ _ _ _ _ hord hI _ hI1 _ hok hsel hstart hE =>
      tickEffect_step hord hI hI1 hok hsel hstart hE)
    fuel d d1 hI h

/-- When `nextDownload` reports a pair for every visiting order, the loop
returns only with the cap reached. -/
theorem tickLoop_fills (ords : Nat → Nat → List PeerPtr → List PeerPtr) :
    ∀ (fuel : Nat) (d d1 : Downloader),
      (∀ ord : Nat → List PeerPtr → List PeerPtr, (∀ k l, (ord k l).Perm l) →
        (d.nextDownload ord).ok = true) →
      (∀ n k l, (ords n k l).Perm l) →
      tickLoop ords fuel d = .ok d1 → parallelPieceDownloads ≤ d1.downloads.card := by
  intro fuel
  induction fuel with
  | zero =>
    intro d d1 _ _ h
    obtain ⟨hcap, rfl⟩ := tickLoop_zero_ok h
    exact Nat.le_of_not_lt hcap
  | succ fuel ih =>
    intro d d1 hall hords h
    rcases tickLoop_succ_ok h with ⟨hcap, rfl⟩ | ⟨_, hno, _⟩ | ⟨_, _, pi, d2, _, hstart, hrest⟩
    · exact Nat.le_of_not_lt hcap
    · rw [hall (ords fuel) (hords fuel)] at hno
      exact absurd hno (by simp)
    · refine ih d2 d1 ?_ hords hrest
      intro ord hord
      rw [show d2.nextDownload ord = d.nextDownload ord from
        nextDownloadLoop_congr ord d2.pieces d.pieces 0 none (startDownload_view hstart)]
      exact hall ord hord

/-- When `nextDownload` reports no pair, the loop returns the state in which it
started. -/
theorem tickLoop_none (ords : Nat → Nat → List PeerPtr → List PeerPtr) (fuel : Nat)
    (d d1 : Downloader)
    (hno : ∀ ord : Nat → List PeerPtr → List PeerPtr, (∀ k l, (ord k l).Perm l) →
      (d.nextDownload ord).ok = false)
    (hords : ∀ n k l, (ords n k l).Perm l)
    (h : tickLoop ords fuel d = .ok d1) : d1 = d := by
  cases fuel with
  | zero => exact (tickLoop_zero_ok h).2
  | succ fuel =>
    rcases tickLoop_succ_ok h with ⟨_, h1⟩ | ⟨_, _, h1⟩ | ⟨_, hok, _⟩
    · exact h1
    · exact h1
    · rw [hno (ords fuel) (hords fuel)] at hok
      exact absurd hok (by simp)

theorem nextDownload_ok_of_wanted (d : Downloader) (ord : Nat → List PeerPtr → List PeerPtr)
    (hord : ∀ k l, (ord k l).Perm l)
    (hnn : ∀ p ∈ d.pieces, (none : PeerPtr) ∉ p.havingPeers)
    (hw : ∃ p ∈ d.pieces, p.Piece.OK = false ∧ p.havingPeers ≠ []) :
    (d.nextDownload ord).ok = true := by
  obtain ⟨p, hp, hOK, hne⟩ := hw
  by_contra hno
  have hfalse : (d.nextDownload ord).ok = false := by simpa using hno
  obtain ⟨_, _, hall⟩ := nextDownloadLoop_not_ok ord hord d.pieces 0 hfalse
  rcases hall p hp with h1 | h1 | h1
  · rw [hOK] at h1; exact absurd h1 (by simp)
  · exact hne h1
  · exact hnn p hp h1

theorem nextDownload_not_ok_of_none (d : Downloader) (ord : Nat → List PeerPtr → List PeerPtr)
    (hord : ∀ k l, (ord k l).Perm l)
    (hw : ¬ ∃ p ∈ d.pieces, p.Piece.OK = false ∧ p.havingPeers ≠ []) :
    (d.nextDownload ord).ok = false := by
  by_contra hno
  have htrue : (d.nextDownload ord).ok = true := by simpa using hno
  obtain ⟨j, p, hj, _, hOK, hne, _⟩ := nextDownloadLoop_ok ord hord d.pieces 0 none htrue
  exact hw ⟨p, List.getElem?_mem hj, hOK, hne⟩

/-- The tick in a state that satisfies the invariant and has no nil peer among
the having peers: it returns; it fills the registry up to the cap when some
incomplete piece has a having peer and changes nothing otherwise; and every
downloader it starts targets the first incomplete piece with a having peer,
via one of the having peers of that piece. -/
theorem tick_spec (d : Downloader) (hI : Inv d)
    (ords : Nat → Nat → List PeerPtr → List PeerPtr) (hords : ∀ n k l, (ords n k l).Perm l)
    (hnn : ∀ p ∈ d.pieces, (none : PeerPtr) ∉ p.havingPeers) :
    ∃ d1, d.tick ords = .ok d1 ∧ Inv d1 ∧ TickEffect d d1 ∧
      ((∃ p ∈ d.pieces, p.Piece.OK = false ∧ p.havingPeers ≠ []) →
        d1.downloads.card = parallelPieceDownloads) ∧
      ((¬ ∃ p ∈ d.pieces, p.Piece.OK = false ∧ p.havingPeers ≠ []) → d1 = d) ∧
      (∀ pd ∈ d1.downloads, pd ∉ d.downloads →
        ∃ p, d.pieces[pd.PieceIndex]? = some p ∧ p.Piece.OK = false ∧
          p.havingPeers ≠ [] ∧ pd.Peer ∈ p.havingPeers ∧
          ∀ (i : Nat) (q : Piece), i < pd.PieceIndex → d.pieces[i]? = some q →
            q.Piece.OK = true ∨ q.havingPeers = []) := by
  obtain ⟨d1, hd1⟩ := tickLoop_total ords hords parallelPieceDownloads d hI (by omega)
  have hI1 : Inv d1 := inv_tickLoop ords hords _ d d1 hI hd1
  have hE : TickEffect d d1 := tickEffect_tickLoop ords hords _ d d1 hI hd1
  refine ⟨d1, hd1, hI1, hE, ?_, ?_, ?_⟩
  · intro hw
    have hfill := tickLoop_fills ords _ d d1
      (fun ord hord => nextDownload_ok_of_wanted d ord hord hnn hw) hords hd1
    exact le_antisymm hI1.cap hfill
  · intro hw
    exact tickLoop_none ords _ d d1
      (fun ord hord => nextDownload_not_ok_of_none d ord hord hw) hords hd1
  · intro pd h1 h2
    obtain ⟨_, ord, hord, hok, pi, hsel, hidx, hpe⟩ := hE.started pd h1 h2
    obtain ⟨j, p, hj, hpi, hOK, hne, hmem, _, hmin⟩ :=
      nextDownloadLoop_ok ord hord d.pieces 0 none hok
    have hpi1 : pi = p.Piece := Option.some.inj (hsel.symm.trans hpi)
    have hjj : pd.PieceIndex = j := by rw [hidx, hpi1]; exact hI.indexed j p hj
    rw [hjj, hpe]
    refine ⟨p, hj, hOK, hne, hmem, ?_⟩
    intro i q hi hq
    rcases hmin i q hi hq with h | h | h
    · exact Or.inl h
    · exact Or.inr h
    · exact absurd h (hnn q (List.getElem?_mem hq))

/-! ## The example runs are reachable -/

theorem reachable_after {d : Downloader} {e : Event} (hr : Reachable d) (he : e.Enabled d)
    (hs : d.Run e = .ok (d.after e)) : Reachable (d.after e) :=
  Reachable.step e hr he hs

theorem reachable_exFailFull : Reachable exFailFull :=
  reachable_after reachable_exTick
    (show (⟨3, 0, exPeerP⟩ : PieceDownloader) ∈ exTick.running by decide) (by decide)

theorem reachable_exRun1 : Reachable exRun1 :=
  reachable_after
    (reachable_after
      (Reachable.stored 0 true
        (reachable_after reachable_exTick
          (show (⟨0, 0, exPeerP⟩ : PieceDownloader) ∈ exTick.running by decide) (by decide)))
      trivial (by decide))
    trivial (by decide)

theorem reachable_exRun2 : Reachable exRun2 :=
  reachable_after
    (reachable_after reachable_exRun1 (fun _ k l => ordRev_perm k l) (by decide))
    (show (⟨1, 0, exPeerP⟩ : PieceDownloader) ∈
      (exRun1.after (.tick (fun _ => ordRev))).running by decide)
    (by decide)

theorem reachable_exStuck : Reachable exStuck :=
  reachable_after
    (reachable_after
      (reachable_after reachable_exFailFull
        (show (⟨2, 0, exPeerP⟩ : PieceDownloader) ∈ exFailFull.running by decide) (by decide))
      (show (⟨1, 0, exPeerP⟩ : PieceDownloader) ∈
        (exFailFull.after (.done ⟨2, 0, exPeerP⟩ true)).running by decide) (by decide))
    (show (⟨0, 0, exPeerP⟩ : PieceDownloader) ∈
      ((exFailFull.after (.done ⟨2, 0, exPeerP⟩ true)).after
        (.done ⟨1, 0, exPeerP⟩ true)).running by decide) (by decide)

theorem reachable_exNilHave : Reachable exNilHave :=
  reachable_after reachable_exHave trivial (by decide)

/-! ## Scheduling after a failure and saturation of the tick -/

/-- C11, the code at the failing input. On an error `downloadPiece` returns
before the two deletes, so the registry and `requestedPeers` stay as they
were, whatever the state. In the state with four downloaders for piece 0 the
one at address 3 ends with an error: it is still registered, four downloaders
count against the cap, piece 0 is still what `nextDownload` returns, and the
next tick starts nothing, for any visiting order; had the same downloader
ended without error, it would have left the registry. Once all four have
failed nothing is running and no tick starts anything. And when a place is
free, the peer that failed can be chosen again: in `exFail` the downloader for
piece 1 with peer 7 has failed and is still registered, peers 7 and 9 have
piece 1, and the next tick starts a downloader for piece 1 with peer 7. -/
theorem failed_downloader_keeps_slot :
    (∀ (d : Downloader) (pd : PieceDownloader),
      ∃ d1, d.downloadPiece pd true = .ok d1 ∧ d1.downloads = d.downloads ∧
        d1.pieces = d.pieces ∧ d1.bitfield = d.bitfield) ∧
    Reachable exTick ∧ (⟨3, 0, exPeerP⟩ : PieceDownloader) ∈ exTick.running ∧
    exTick.Run (.done ⟨3, 0, exPeerP⟩ true) = .ok exFailFull ∧ Reachable exFailFull ∧
    (⟨3, 0, exPeerP⟩ : PieceDownloader) ∈ exFailFull.downloads ∧
    exFailFull.downloads.card = 4 ∧
    exFailFull.nextDownload ordId =
      { pi := some { Index := 0, OK := false }, pe := exPeerP, ok := true } ∧
    (∀ ords, exFailFull.tick ords = .ok exFailFull) ∧
    exTick.Run (.done ⟨3, 0, exPeerP⟩ false) = .ok exDone ∧
    (⟨3, 0, exPeerP⟩ : PieceDownloader) ∉ exDone.downloads ∧
    Reachable exStuck ∧ exStuck.running = ∅ ∧ exStuck.downloads.card = 4 ∧
    (∀ ords, exStuck.tick ords = .ok exStuck) ∧
    Reachable exRun2 ∧ (⟨4, 1, exPeerP⟩ : PieceDownloader) ∈ exRun2.running ∧
    exRun2.Run (.done ⟨4, 1, exPeerP⟩ true) = .ok exFail ∧
    (⟨4, 1, exPeerP⟩ : PieceDownloader) ∈ exFail.downloads ∧
    exFail.downloads.card = 3 ∧
    exFail.pieces[1]? = some exFailSlot1 ∧
    exFail.tick (fun _ => ordRev) = .ok exRetry ∧
    (∀ x ∈ exRetry.downloads, x ∉ exFail.downloads → x = ⟨5, 1, exPeerP⟩) := by
  refine ⟨?_, reachable_exTick, by decide, by decide, reachable_exFailFull, by decide,
    by decide, by decide, fun _ => rfl, by decide, by decide, reachable_exStuck, by decide,
    by decide, fun _ => rfl,
    reachable_exRun2, by decide, by decide, by decide, by decide, by decide, by decide,
    by decide⟩
  intro d pd
  exact ⟨{ d with running := d.running.erase pd }, rfl, rfl, rfl, rfl⟩

/-- C14 as stated fails, in two ways. First, a started downloader need not be
registered in `requestedPeers` once the tick has returned: in the state with
one peer having piece 0 the tick starts four downloaders for piece 0 with that
peer, each assignment to `requestedPeers` replaces the one before, and the
downloader at address 0 is in `downloads` but not in `requestedPeers`. Second,
the tick need not start all or nothing: with a nil peer among the having peers
of piece 0, the first call of `nextDownload` returns a pair and the second,
which visits the nil peer last, returns none, so that one downloader is
started. -/
theorem tick_saturates_counterexample :
    (¬ ∀ (d d1 : Downloader) (ords : Nat → Nat → List PeerPtr → List PeerPtr),
        Reachable d → (∀ n k l, (ords n k l).Perm l) → d.tick ords = .ok d1 →
        ∀ pd ∈ d1.downloads, pd ∉ d.downloads →
          ∃ q1 : Piece, d1.pieces[pd.PieceIndex]? = some q1 ∧
            mapGet q1.requestedPeers pd.Peer = some pd) ∧
    (¬ ∀ (d : Downloader) (ords : Nat → Nat → List PeerPtr → List PeerPtr),
        Reachable d → (∀ n k l, (ords n k l).Perm l) →
        ∃ d1, d.tick ords = .ok d1 ∧
          ((d1.downloads \ d.downloads).card = parallelPieceDownloads - d.downloads.card ∨
            (d1.downloads \ d.downloads).card = 0)) := by
  constructor
  · intro hall
    obtain ⟨q1, hq1, hget⟩ := hall exHave exTick (fun _ => ordId) reachable_exHave
      (fun _ k l => ordId_perm k l) (by decide) ⟨0, 0, exPeerP⟩ (by decide) (by decide)
    have hslot : (exTick.pieces[0]?).map (fun q => mapGet q.requestedPeers exPeerP) =
        some (some ⟨3, 0, exPeerP⟩) := by decide
    have hq1b : exTick.pieces[0]? = some q1 := hq1
    rw [hq1b] at hslot
    have hget2 : mapGet q1.requestedPeers exPeerP = some ⟨3, 0, exPeerP⟩ :=
      Option.some.inj hslot
    have hget1 : mapGet q1.requestedPeers exPeerP = some ⟨0, 0, exPeerP⟩ := hget
    rw [hget1] at hget2
    exact absurd hget2 (by decide)
  · intro hall
    obtain ⟨d1, htick, hor⟩ := hall exNilHave ordsAlt reachable_exNilHave ordsAlt_perm
    have hone : exNilHave.tick ordsAlt = .ok (exNilHave.after (.tick ordsAlt)) := by decide
    rw [hone] at htick
    rw [← Except.ok.inj htick] at hor
    have hcard : ((exNilHave.after (.tick ordsAlt)).downloads \ exNilHave.downloads).card = 1 := by
      decide
    rw [hcard] at hor
    rcases hor with h | h
    · exact absurd h (by decide)
    · exact absurd h (by decide)

/-- C14 amended (tick saturation and termination): in every reachable state
with `n` registered downloaders and no nil peer among the having peers, the
scheduling loop returns within `parallelPieceDownloads - n` iterations, and so
does the tick. When some incomplete piece has a having peer the tick starts
exactly `parallelPieceDownloads - n` new downloaders and the registry is full;
otherwise it starts none and leaves the state as it is. Every started
downloader is in `downloads`, targets the first incomplete piece with a having
peer via one of its having peers, and `requestedPeers` of that piece holds
under that peer a downloader started by this tick, for the same piece and
peer (the downloader itself when it is started, see the last part: a later
iteration that returns the same piece and peer replaces the entry). After the
tick at least `parallelPieceDownloads` downloaders are registered or
`nextDownload` reports no pair. -/
theorem tick_saturates (d : Downloader) (hr : Reachable d)
    (ords : Nat → Nat → List PeerPtr → List PeerPtr) (hords : ∀ n k l, (ords n k l).Perm l)
    (hnn : ∀ p ∈ d.pieces, (none : PeerPtr) ∉ p.havingPeers) :
    (∀ fuel, parallelPieceDownloads - d.downloads.card ≤ fuel →
      ∃ d0, tickLoop ords fuel d = .ok d0) ∧
    (∃ d1, d.tick ords = .ok d1 ∧
      d.downloads ⊆ d1.downloads ∧
      ((∃ p ∈ d.pieces, p.Piece.OK = false ∧ p.havingPeers ≠ []) →
        (d1.downloads \ d.downloads).card = parallelPieceDownloads - d.downloads.card ∧
        d1.downloads.card = parallelPieceDownloads) ∧
      ((¬ ∃ p ∈ d.pieces, p.Piece.OK = false ∧ p.havingPeers ≠ []) → d1 = d) ∧
      (∀ pd ∈ d1.downloads, pd ∉ d.downloads →
        ∃ (p q1 : Piece) (y : PieceDownloader),
          d.pieces[pd.PieceIndex]? = some p ∧ p.Piece.OK = false ∧
          pd.Peer ∈ p.havingPeers ∧
          (∀ (i : Nat) (q : Piece), i < pd.PieceIndex → d.pieces[i]? = some q →
            q.Piece.OK = true ∨ q.havingPeers = []) ∧
          d1.pieces[pd.PieceIndex]? = some q1 ∧
          mapGet q1.requestedPeers pd.Peer = some y ∧
          y ∈ d1.downloads ∧ y ∉ d.downloads ∧
          y.PieceIndex = pd.PieceIndex ∧ y.Peer = pd.Peer) ∧
      (parallelPieceDownloads ≤ d1.downloads.card ∨
        ∀ ord : Nat → List PeerPtr → List PeerPtr, (∀ k l, (ord k l).Perm l) →
          (d1.nextDownload ord).ok = false)) ∧
    (∀ (d2 d3 : Downloader) (pi : piece.Piece) (pe : PeerPtr),
      d2.startDownload pi pe = .ok d3 →
      piecedownloader.New d2.heap pi pe ∈ d3.downloads ∧
      ∃ p3, d3.pieces[pi.Index]? = some p3 ∧
        mapGet p3.requestedPeers pe = some (piecedownloader.New d2.heap pi pe)) := by
  have hI : Inv d := inv_of_reachable hr
  refine ⟨?_, ?_, fun d2 d3 pi pe hs => startDownload_registers hs⟩
  · intro fuel hfuel
    exact tickLoop_total ords hords fuel d hI (by omega)
  · obtain ⟨d1, htick, hI1, hE, hfull, hnone, hnew⟩ := tick_spec d hI ords hords hnn
    refine ⟨d1, htick, hE.subset, ?_, hnone, ?_, ?_⟩
    · intro hw
      have hcard := hfull hw
      rw [Finset.card_sdiff hE.subset, hcard]
      exact ⟨rfl, rfl⟩
    · intro pd h1 h2
      obtain ⟨p, hp, hOK, _, hmem, hmin⟩ := hnew pd h1 h2
      obtain ⟨q1, y, hq1, hy, hy1, hy2⟩ := hE.registered pd h1 h2
      obtain ⟨_, hyi, hyp, _⟩ := hI1.requested _ q1 _ y hq1 hy
      exact ⟨p, q1, y, hp, hOK, hmem, hmin, hq1, hy, hy1, hy2, hyi, hyp⟩
    · by_cases hw : ∃ p ∈ d.pieces, p.Piece.OK = false ∧ p.havingPeers ≠ []
      · exact Or.inl (le_of_eq (hfull hw).symm)
      · right
        intro ord hord
        rw [hnone hw]
        exact nextDownload_not_ok_of_none d ord hord hw

/-- Witness of C14 amended: in the state where peers 7 and 9 have piece 0 and
nothing is registered, the tick returns the state with four downloaders. -/
theorem tick_saturates_witness :
    exHave2.tick ordsAlt = .ok exTick2 ∧ exTick2.downloads.card = 4 ∧
    (∀ fuel, parallelPieceDownloads - exHave2.downloads.card ≤ fuel →
      ∃ d0, tickLoop ordsAlt fuel exHave2 = .ok d0) ∧
    (∀ (d2 d3 : Downloader) (pi : piece.Piece) (pe : PeerPtr),
      d2.startDownload pi pe = .ok d3 →
      piecedownloader.New d2.heap pi pe ∈ d3.downloads ∧
      ∃ p3, d3.pieces[pi.Index]? = some p3 ∧
        mapGet p3.requestedPeers pe = some (piecedownloader.New d2.heap pi pe)) :=
  ⟨by decide, by decide,
    (tick_saturates exHave2 reachable_exHave2 ordsAlt ordsAlt_perm (by decide)).1,
    (tick_saturates exHave2 reachable_exHave2 ordsAlt ordsAlt_perm (by decide)).2.2⟩

end Rain
